import Mathlib

/-!
# fullerite: configuration loading, option coercion and the debug handler

A shallow embedding of `config/config.go` and `handler/debug.go`, and of the
leader-gated poller that `collector/mesos_test.go` exercises.

Go strings and byte slices are modelled as `List Char`.  Every pattern and
separator the code uses is ASCII, and an ASCII byte is never part of a
multi-byte UTF-8 sequence, so scanning characters and scanning bytes find the
same matches.  Go's `int` is taken to be 64 bits wide (the amd64 targets the
agent is built for).
-/

set_option autoImplicit false

namespace Fullerite

/-- A Go `string` / `[]byte`. -/
abbrev GoString := List Char

/-- A Go `error` value (its message). -/
structure GoError where
  msg : GoString
deriving DecidableEq, Repr

/-! ## Environment interpolation (`config.go`, lines 30-45) -/

/-- The process environment as seen by `os.LookupEnv`. -/
abbrev Env := GoString → Option GoString

/-- The file system as seen by `ioutil.ReadFile`: the pair `(data, err)` the call
returns for a file name. -/
abbrev FileSystem := GoString → GoString × Option GoError

/-- The character class `[A-Z]`. -/
def isUpper (c : Char) : Bool := decide ('A' ≤ c) && decide (c ≤ 'Z')

/-- The character class `[A-Z0-9_]`. -/
def isNameChar (c : Char) : Bool :=
  isUpper c || (decide ('0' ≤ c) && decide (c ≤ '9')) || c == '_'

/-- One attempt of the compiled pattern `%%[A-Z][A-Z0-9_]{4,}%%` anchored at the
head of the input: the matched text and the unconsumed rest.  The repetition
is greedy and `%` is outside the class, so the closing `%%` can only follow the
maximal run of class characters. -/
def matchTokenAt : GoString → Option (GoString × GoString)
  | '%' :: '%' :: c :: rest =>
    if isUpper c then
      if 4 ≤ (rest.takeWhile isNameChar).length then
        match rest.dropWhile isNameChar with
        | '%' :: '%' :: tail =>
          some ('%' :: '%' :: c :: (rest.takeWhile isNameChar ++ ['%', '%']), tail)
        | _ => none
      else none
    else none
  | _ => none

/-- The scan behind `re.FindAll(c, -1)`: leftmost matches, left to right, never
overlapping.  `skip` counts the characters still covered by the previous
match. -/
def findAllGo : Nat → GoString → List GoString
  | _, [] => []
  | skip + 1, _ :: cs => findAllGo skip cs
  | 0, c :: cs =>
    match matchTokenAt (c :: cs) with
    | some (m, _) => m :: findAllGo (m.length - 1) cs
    | none => findAllGo 0 cs

/-- The call `re.FindAll(c, -1)` for `re = %%[A-Z][A-Z0-9_]{4,}%%`. -/
def FindAll (c : GoString) : List GoString := findAllGo 0 c

/-- The scan behind replacing every leftmost non-overlapping occurrence of a
non-empty literal `old` by `new`. -/
def replaceAllGo (old new : GoString) : Nat → GoString → GoString
  | _, [] => []
  | skip + 1, _ :: cs => replaceAllGo old new skip cs
  | 0, c :: cs =>
    if old.isPrefixOf (c :: cs) then new ++ replaceAllGo old new (old.length - 1) cs
    else c :: replaceAllGo old new 0 cs

/-- The call `re2.ReplaceAllLiteral(c, val)` where `re2` is compiled from a text
without regexp metacharacters (here always `%%NAME%%` with `NAME` drawn from
`[A-Z0-9_]`), and equally `strings.Replace(s, old, new, -1)` for a non-empty
`old`. -/
def ReplaceAllLiteral (old new c : GoString) : GoString := replaceAllGo old new 0 c

/-- The slice `string(v)[2 : len(v)-2]`. -/
def sliceName (v : GoString) : GoString := (v.drop 2).take (v.length - 4)

/-- The text `"%%" + name + "%%"`. -/
def tokenOf (name : GoString) : GoString := '%' :: '%' :: (name ++ ['%', '%'])

/-- One iteration of the `for _, v := range matched` loop. -/
def interpolateStep (env : Env) (c v : GoString) : GoString :=
  match env (sliceName v) with
  | some val => ReplaceAllLiteral (tokenOf (sliceName v)) val c
  | none => c

/-- The loop of `interpolateEnvvarsIntoConfigRead` on file content `c`. -/
def interpolate (env : Env) (c : GoString) : GoString :=
  (FindAll c).foldl (interpolateStep env) c

/-- The function `interpolateEnvvarsIntoConfigRead`: the pair `(c, e)` it returns.
The loop runs on whatever `ioutil.ReadFile` returned, error or not. -/
def interpolateEnvvarsIntoConfigRead (fs : FileSystem) (env : Env)
    (configFile : GoString) : GoString × Option GoError :=
  match fs configFile with
  | (c, e) => (interpolate env c, e)

/-! ### The token pattern, stated on whole strings -/

/-- A whole-string match of `[A-Z][A-Z0-9_]{4,}`. -/
def isName : GoString → Bool
  | c :: r => isUpper c && r.all isNameChar && decide (4 ≤ r.length)
  | [] => false

/-- A whole-string match of `%%[A-Z][A-Z0-9_]{4,}%%`. -/
def matchesToken (t : GoString) : Bool :=
  isName (sliceName t) && t == tokenOf (sliceName t)

/-- Every contiguous substring of `s`. -/
def substrings (s : GoString) : List GoString := s.tails.flatMap List.inits

/-! ### Interpolation as one simultaneous substitution, as the specification words it -/

/-- The scan of the simultaneous substitution: each leftmost non-overlapping
match of the token pattern whose name is set is replaced once by the variable's
value, and every other character is kept.  `skip` counts the characters still
covered by the previous match and `copy` tells whether they are kept. -/
def substituteGo (env : Env) : Nat → Bool → GoString → GoString
  | _, _, [] => []
  | skip + 1, copy, c :: cs =>
    if copy then c :: substituteGo env skip copy cs else substituteGo env skip copy cs
  | 0, _, c :: cs =>
    match matchTokenAt (c :: cs) with
    | some (m, _) =>
      match env (sliceName m) with
      | some v => v ++ substituteGo env (m.length - 1) false cs
      | none => c :: substituteGo env (m.length - 1) true cs
    | none => c :: substituteGo env 0 true cs

/-- The original content with each leftmost non-overlapping match whose name is
set replaced once by that variable's value. -/
def simultaneousSubstitution (env : Env) (c : GoString) : GoString :=
  substituteGo env 0 true c

/-- A piece of a text laid out as plain chunks and tokens. -/
inductive Segment where
  | text (s : GoString)
  | token (name : GoString)
deriving DecidableEq, Repr

/-- The characters of one piece. -/
def Segment.render : Segment → GoString
  | Segment.text s => s
  | Segment.token n => tokenOf n

/-- The text a list of pieces lays out. -/
def renderSegments : List Segment → GoString
  | [] => []
  | seg :: rest => seg.render ++ renderSegments rest

/-- The text has no percent sign. -/
def percentFree (s : GoString) : Bool := s.all fun c => c != '%'

/-- The names of the tokens of a layout, in order. -/
def tokenNames : List Segment → List GoString
  | [] => []
  | Segment.text _ :: rest => tokenNames rest
  | Segment.token n :: rest => n :: tokenNames rest

/-- A piece after the simultaneous substitution: a token whose name is set
becomes the variable's value. -/
def Segment.substitute (env : Env) : Segment → Segment
  | Segment.text s => Segment.text s
  | Segment.token n =>
    match env n with
    | some v => Segment.text v
    | none => Segment.token n

/-- A piece after one `ReplaceAllLiteral` of the token of `N` by `v`. -/
def replaceToken (N v : GoString) : Segment → Segment
  | Segment.text s => Segment.text s
  | Segment.token n => if n = N then Segment.text v else Segment.token n

/-- A piece after the loop has handled the names of `L`. -/
def Segment.substituteIn (env : Env) (L : List GoString) : Segment → Segment
  | Segment.text s => Segment.text s
  | Segment.token n => if n ∈ L then Segment.substitute env (Segment.token n) else Segment.token n

/-- The text ends with the beginning of a token: with a percent sign, or with
two percent signs followed by an uppercase letter and any number of further
characters of `[A-Z0-9_]`. -/
def opensToken (s : GoString) : Bool :=
  match s.reverse.dropWhile isNameChar, (s.reverse.takeWhile isNameChar).reverse with
  | '%' :: _, [] => true
  | '%' :: '%' :: _, u :: _ => isUpper u
  | _, _ => false

/-- The text is not empty and begins with a character no token contains:
neither a percent sign nor a character of `[A-Z0-9_]`. -/
def startsOutsideTokens : GoString → Bool
  | [] => false
  | c :: _ => c != '%' && !isNameChar c

/-- A layout as the leftmost scan produces it: no pattern match begins inside a
chunk, and every token carries a name matching `[A-Z][A-Z0-9_]{4,}`. -/
def Scanned : List Segment → Prop
  | [] => True
  | Segment.text s :: rest =>
    (∀ p1 p2, s = p1 ++ p2 → p2 ≠ [] → matchTokenAt (p2 ++ renderSegments rest) = none) ∧
      Scanned rest
  | Segment.token n :: rest => isName n = true ∧ Scanned rest

/-! ## Reading configuration files (`config.go`, lines 17-28 and 47-89) -/

/-- An IEEE-754 binary64 value (Go `float64`) by its fields: the sign bit, the
biased 11-bit exponent and the 52-bit fraction. -/
structure Float64 where
  sign : Bool
  exponent : Nat
  fraction : Nat
deriving DecidableEq, Repr

/-- A dynamically typed configuration value (Go `interface{}`), by dynamic
type.  Maps are association lists with distinct keys. -/
inductive Value where
  | nil
  | bool (b : Bool)
  | string (s : GoString)
  | int (n : Int)
  | int32 (n : Int)
  | int64 (n : Int)
  | float64 (f : Float64)
  | mapAny (m : List (GoString × Value))
  | mapString (m : List (GoString × GoString))
  | sliceString (xs : List GoString)
  | sliceAny (xs : List Value)
  | other (typeName : GoString)

/-- The `Config` struct: the global configuration. -/
structure Config where
  Prefix : GoString
  Interval : Value
  CollectorsConfigPath : GoString
  DiamondCollectorsPath : GoString
  DiamondCollectors : List GoString
  Handlers : List (GoString × List (GoString × Value))
  Collectors : List GoString
  DefaultDimensions : List (GoString × GoString)
  InternalServerConfig : List (GoString × Value)

/-- The zero value of `Config`, which the named result `c` holds on entry. -/
def Config.zero : Config :=
  { Prefix := [], Interval := Value.nil, CollectorsConfigPath := [],
    DiamondCollectorsPath := [], DiamondCollectors := [], Handlers := [],
    Collectors := [], DefaultDimensions := [], InternalServerConfig := [] }

/-- The decoder `json.Unmarshal(data, &x)` for a target of type `α`: from the
text and the target's value before the call, the target's value after the
call and the error.  It belongs to the Go library and is a parameter. -/
abbrev Unmarshal (α : Type) := GoString → α → α × Option GoError

/-- The function `ReadConfig`. -/
def ReadConfig (fs : FileSystem) (env : Env) (unmarshal : Unmarshal Config)
    (configFile : GoString) : Config × Option GoError :=
  match interpolateEnvvarsIntoConfigRead fs env configFile with
  | (_, some e) => (Config.zero, some e)
  | (contents, none) =>
    match unmarshal contents Config.zero with
    | (c, some err) => (c, some err)
    | (c, none) => (c, none)

/-- The function `ReadCollectorConfig`; the named result `c` starts as the nil map. -/
def ReadCollectorConfig (fs : FileSystem) (env : Env)
    (unmarshal : Unmarshal (List (GoString × Value))) (configFile : GoString) :
    List (GoString × Value) × Option GoError :=
  match interpolateEnvvarsIntoConfigRead fs env configFile with
  | (_, some e) => ([], some e)
  | (contents, none) =>
    match unmarshal contents [] with
    | (c, some err) => (c, some err)
    | (c, none) => (c, none)

/-- The path `GetCollectorConfig` builds:
`strings.Join([]string{conf.CollectorsConfigPath, name}, "/") + ".conf"`, then
`strings.Replace(configFile, " ", "_", -1)`. -/
def collectorConfigFile (conf : Config) (name : GoString) : GoString :=
  ReplaceAllLiteral [' '] ['_'] (conf.CollectorsConfigPath ++ ['/'] ++ name ++ ".conf".toList)

/-- The method `Config.GetCollectorConfig`. -/
def Config.GetCollectorConfig (conf : Config) (fs : FileSystem) (env : Env)
    (unmarshal : Unmarshal (List (GoString × Value))) (name : GoString) :
    List (GoString × Value) × Option GoError :=
  ReadCollectorConfig fs env unmarshal (collectorConfigFile conf name)

/-! ## Option coercion (`config.go`, lines 91-186) -/

/-- The `Err` field of a `*strconv.NumError`. -/
inductive NumError where
  | ErrSyntax
  | ErrRange
deriving DecidableEq, Repr

/-- The value `1<<64 - 1`. -/
def maxUint64 : Nat := 2 ^ 64 - 1

/-- The digit switch of `strconv.ParseUint`. -/
def digitValue (d : Char) : Option Nat :=
  if '0' ≤ d ∧ d ≤ '9' then some (d.toNat - '0'.toNat)
  else if 'a' ≤ d ∧ d ≤ 'z' then some (d.toNat - 'a'.toNat + 10)
  else if 'A' ≤ d ∧ d ≤ 'Z' then some (d.toNat - 'A'.toNat + 10)
  else none

/-- The digit loop of `strconv.ParseUint(s, 10, 64)` on `uint64` arithmetic:
`cutoff = maxUint64/10 + 1`, `maxVal = maxUint64`. -/
def parseUintLoop (n : Nat) : GoString → Nat × Option NumError
  | [] => (n, none)
  | d :: ds =>
    match digitValue d with
    | none => (0, some NumError.ErrSyntax)
    | some v =>
      if 10 ≤ v then (0, some NumError.ErrSyntax)
      else if maxUint64 / 10 + 1 ≤ n then (maxUint64, some NumError.ErrRange)
      else
        if (n * 10 % 2 ^ 64 + v) % 2 ^ 64 < n * 10 % 2 ^ 64 ∨
            maxUint64 < (n * 10 % 2 ^ 64 + v) % 2 ^ 64 then
          (maxUint64, some NumError.ErrRange)
        else parseUintLoop ((n * 10 % 2 ^ 64 + v) % 2 ^ 64) ds

/-- The library call `strconv.ParseUint(s, 10, 64)`. -/
def ParseUint (s : GoString) : Nat × Option NumError :=
  if s = [] then (0, some NumError.ErrSyntax) else parseUintLoop 0 s

/-- Conversion to a signed 64-bit integer (two's complement wrap-around). -/
def wrapInt64 (x : Int) : Int := (x + 2 ^ 63) % 2 ^ 64 - 2 ^ 63

/-- The part of `strconv.ParseInt(s, 10, 64)` after the leading sign is picked
off: `neg` records a minus sign and `digits` is the rest of the text. -/
def parseIntSigned (neg : Bool) (digits : GoString) : Int × Option NumError :=
  match ParseUint digits with
  | (_, some NumError.ErrSyntax) => (0, some NumError.ErrSyntax)
  | (un, _) =>
    if !neg && decide (2 ^ 63 ≤ un) then (2 ^ 63 - 1, some NumError.ErrRange)
    else if neg && decide (2 ^ 63 < un) then (-(2 ^ 63), some NumError.ErrRange)
    else (if neg then wrapInt64 (-(wrapInt64 un)) else wrapInt64 un, none)

/-- The library call `strconv.ParseInt(s, 10, 64)`: the pair `(i, err)`. -/
def ParseInt (s : GoString) : Int × Option NumError :=
  match s with
  | [] => (0, some NumError.ErrSyntax)
  | c :: rest =>
    if c = '+' then parseIntSigned false rest
    else if c = '-' then parseIntSigned true rest
    else parseIntSigned false (c :: rest)

/-- The conversion `int(f)` of a `float64` as amd64 performs it: truncation
toward zero, and the value `-2^63` when the operand is NaN, infinite or out of
range. -/
def Float64.toInt (f : Float64) : Int :=
  if f.exponent = 2047 then -(2 ^ 63)
  else if f.exponent < 1023 then 0
  else
    let mant : Nat := 2 ^ 52 + f.fraction
    let e : Nat := f.exponent - 1023
    let mag : Nat := if 52 ≤ e then mant * 2 ^ (e - 52) else mant / 2 ^ (52 - e)
    let v : Int := if f.sign then -(mag : Int) else (mag : Int)
    if -(2 ^ 63) ≤ v ∧ v < 2 ^ 63 then v else -(2 ^ 63)

/-- The position of the leading one bit of a non-zero `a < 2^65`. -/
def leadingBit (a : Nat) : Nat := ((List.range 64).filter fun k => 2 ^ (k + 1) ≤ a).length

/-- The conversion `float64(n)` of a 64-bit integer: round to nearest, ties to
even. -/
def Float64.ofInt (n : Int) : Float64 :=
  if n = 0 then { sign := false, exponent := 0, fraction := 0 }
  else
    let a : Nat := n.natAbs
    let k : Nat := leadingBit a
    if k ≤ 52 then
      { sign := decide (n < 0), exponent := 1023 + k, fraction := (a - 2 ^ k) * 2 ^ (52 - k) }
    else
      let q : Nat := a / 2 ^ (k - 52)
      let r : Nat := a % 2 ^ (k - 52)
      let half : Nat := 2 ^ (k - 53)
      let q1 : Nat := if half < r ∨ (r = half ∧ q % 2 = 1) then q + 1 else q
      if q1 = 2 ^ 53 then { sign := decide (n < 0), exponent := 1023 + k + 1, fraction := 0 }
      else { sign := decide (n < 0), exponent := 1023 + k, fraction := q1 - 2 ^ 52 }

/-- The library call `strconv.ParseFloat(s, 64)`: the pair `(f, err)`.  It is a
parameter of the coercion. -/
abbrev ParseFloat := GoString → Float64 × Option NumError

/-- The function `GetAsFloat`. -/
def GetAsFloat (parseFloat : ParseFloat) (value : Value) (defaultValue : Float64) : Float64 :=
  match value with
  | Value.string s =>
    match parseFloat s with
    | (_, some _) => defaultValue
    | (fromString, none) => fromString
  | Value.float64 f => f
  | _ => defaultValue

/-- The function `GetAsInt`. -/
def GetAsInt (value : Value) (defaultValue : Int) : Int :=
  match value with
  | Value.string s =>
    match ParseInt s with
    | (fromString, none) => wrapInt64 fromString
    | (_, some _) => defaultValue
  | Value.int n => n
  | Value.int32 n => wrapInt64 n
  | Value.int64 n => wrapInt64 n
  | Value.float64 f => f.toInt
  | _ => defaultValue

/-- The function `GetAsMap`; `unmarshal` decodes into the freshly made empty map. -/
def GetAsMap (unmarshal : Unmarshal (List (GoString × GoString))) (value : Value) :
    List (GoString × GoString) :=
  match value with
  | Value.string s => (unmarshal s []).1
  | Value.mapAny temp =>
    temp.filterMap fun kv =>
      match kv.2 with
      | Value.string str => some (kv.1, str)
      | _ => none
  | Value.mapString m => m
  | _ => []

/-- A run-time panic, with the message the Go runtime prints. -/
structure GoPanic where
  msg : GoString
deriving DecidableEq, Repr

/-- The name of the dynamic type as the runtime prints it. -/
def Value.typeName : Value → GoString
  | Value.nil => "nil".toList
  | Value.bool _ => "bool".toList
  | Value.string _ => "string".toList
  | Value.int _ => "int".toList
  | Value.int32 _ => "int32".toList
  | Value.int64 _ => "int64".toList
  | Value.float64 _ => "float64".toList
  | Value.mapAny _ => "map[string]interface {}".toList
  | Value.mapString _ => "map[string]string".toList
  | Value.sliceString _ => "[]string".toList
  | Value.sliceAny _ => "[]interface {}".toList
  | Value.other t => t

/-- The unchecked type assertion `value.(string)`: it panics on any other
dynamic type. -/
def assertString (value : Value) : Except GoPanic GoString :=
  match value with
  | Value.string s => Except.ok s
  | v => Except.error
      { msg := "interface conversion: interface {} is ".toList ++ v.typeName ++
          ", not string".toList }

/-- The function `GetAsSlice`; `unmarshal` decodes into the empty slice.  The
result is the returned slice, or the panic that ends the call. -/
def GetAsSlice (unmarshal : Unmarshal (List GoString)) (value : Value) :
    Except GoPanic (List GoString) :=
  match value with
  | Value.string realValue => Except.ok (unmarshal realValue []).1
  | Value.sliceString realValue => Except.ok realValue
  | Value.sliceAny realValue => realValue.mapM assertString
  | _ => Except.ok []

/-! ### Base-10 literals of signed 64-bit integers, as the specification words them -/

/-- The decimal digits `0` to `9`. -/
def isDecimalDigit (c : Char) : Bool := decide ('0' ≤ c) && decide (c ≤ '9')

/-- The number a digit string denotes, continuing from `acc`. -/
def decimalValue (acc : Nat) (ds : GoString) : Nat :=
  ds.foldl (fun a c => a * 10 + (c.toNat - '0'.toNat)) acc

/-- The number denoted by a non-empty string of decimal digits. -/
def unsignedLiteral (ds : GoString) : Option Nat :=
  if ds ≠ [] ∧ ds.all isDecimalDigit = true then some (decimalValue 0 ds) else none

/-- The integer denoted by a valid base-10 literal of a signed 64-bit integer:
an optional sign, one or more decimal digits, a value from `-2^63` to
`2^63 - 1`; `none` for every other string. -/
def int64Literal (s : GoString) : Option Int :=
  match s with
  | '-' :: ds =>
    match unsignedLiteral ds with
    | some v => if v ≤ 2 ^ 63 then some (-(v : Int)) else none
    | none => none
  | '+' :: ds =>
    match unsignedLiteral ds with
    | some v => if v < 2 ^ 63 then some (v : Int) else none
    | none => none
  | ds =>
    match unsignedLiteral ds with
    | some v => if v < 2 ^ 63 then some (v : Int) else none
    | none => none

/-! ## The debug handler (`handler/debug.go`) -/

/-- Modelled from the spec: the kind of a Measurement, `enum{Gauge,
CumulativeCounter}`; package `metric` is not among the sources. -/
inductive MetricType where
  | Gauge
  | CumulativeCounter
deriving DecidableEq, Repr

/-- Modelled from the spec: a Measurement (`metric.Metric`), `{ name: string,
kind, value: float64, dimensions: mapping(string→string) }`; package `metric`
is not among the sources. -/
structure Metric where
  name : GoString
  metricType : MetricType
  value : Float64
  dimensions : List (GoString × GoString)
deriving DecidableEq, Repr

/-- The level of a log entry. -/
inductive LogLevel where
  | Info
  | Warn
deriving DecidableEq, Repr

/-- One entry written through `h.log`. -/
structure LogLine where
  level : LogLevel
  msg : GoString
deriving DecidableEq, Repr

/-- Modelled from the spec: the handler state `BaseHandler` of `handler.go`,
which is not among the sources: `{ name, interval, maxBufferSize, inbound
channel }` and the log context; these are the fields `NewDebug` sets.  A
channel is known by its identity, a log context by its fields. -/
structure BaseHandler where
  name : GoString
  interval : Int
  maxBufferSize : Int
  log : List (GoString × GoString)
  channel : Nat
deriving DecidableEq, Repr

/-- The `Debug` type: it embeds `BaseHandler`. -/
structure Debug extends BaseHandler
deriving DecidableEq, Repr

/-- The constructor `NewDebug`. -/
def NewDebug (channel : Nat) (initialInterval initialBufferSize : Int)
    (log : List (GoString × GoString)) : Debug :=
  { name := "Debug".toList, interval := initialInterval, maxBufferSize := initialBufferSize,
    log := log, channel := channel }

/-- Modelled from the spec: `BaseHandler.configureCommonParams` of `handler.go`,
which is not among the sources.  "recognized keys `{interval: seconds,
max_buffer_size: int}`", coerced through the shared contract, which "on failure
... falls back to the previously-set default". -/
def BaseHandler.configureCommonParams (h : BaseHandler) (configMap : List (GoString × Value)) :
    BaseHandler :=
  let h1 : BaseHandler :=
    match configMap.lookup "max_buffer_size".toList with
    | some asInterface => { h with maxBufferSize := GetAsInt asInterface h.maxBufferSize }
    | none => h
  match configMap.lookup "interval".toList with
  | some asInterface => { h1 with interval := GetAsInt asInterface h1.interval }
  | none => h1

/-- The method `Debug.Configure`. -/
def Debug.Configure (h : Debug) (configMap : List (GoString × Value)) : Debug :=
  { h with toBaseHandler := h.toBaseHandler.configureCommonParams configMap }

/-- Modelled from the spec: the accessor `Interval()` of `handler.go`. -/
def Debug.Interval (h : Debug) : Int := h.interval

/-- Modelled from the spec: the accessor `MaxBufferSize()` of `handler.go`. -/
def Debug.MaxBufferSize (h : Debug) : Int := h.maxBufferSize

/-- The encoder `json.Marshal(m)` for a Measurement: the pair `(bytes, err)`.
It belongs to the Go library and is a parameter. -/
abbrev Marshal := Metric → GoString × Option GoError

/-- The library call `fmt.Sprintf(format)` without operands; a parameter. -/
abbrev Sprintf := GoString → GoString

/-- The method `Debug.convertToDebug`. -/
def Debug.convertToDebug (_h : Debug) (marshal : Marshal) (incomingMetric : Metric) : GoString :=
  (marshal incomingMetric).1

/-- The method `Debug.emitMetrics`: the entries written to `h.log`, in order, and
the returned flag.  `h.log.Info(a, n, b)` writes `fmt.Sprint(a, n, b)`, which
puts no blank next to a string operand. -/
def Debug.emitMetrics (h : Debug) (marshal : Marshal) (sprintf : Sprintf)
    (metrics : List Metric) : List LogLine × Bool :=
  let start : LogLine :=
    { level := LogLevel.Info,
      msg := "Starting to emit ".toList ++ (Nat.repr metrics.length).toList ++
        " metrics".toList }
  if metrics.length = 0 then
    ([start, { level := LogLevel.Warn,
               msg := "Skipping send because of an empty payload".toList }], false)
  else
    (start :: metrics.map fun m =>
      { level := LogLevel.Info, msg := sprintf (h.convertToDebug marshal m) }, true)

/-! ## The leader-gated poller (`collector/mesos.go`, known by `mesos_test.go`) -/

/-- Modelled from the spec: `buildMetric` of `mesos.go`, which is not among the
sources.  "For all measurement names matching the cumulative-counter name
pattern, `buildMeasurement` assigns kind `CumulativeCounter`; for all other
names, kind `Gauge`."  The name pattern is a table of `mesos.go` and a
parameter; the prefix `mesos.` and the empty dimension map are what
`TestMesosStatsBuildMetric` expects. -/
def buildMetric (isCumulativeCounter : GoString → Bool) (k : GoString) (v : Float64) : Metric :=
  { name := "mesos.".toList ++ k,
    metricType :=
      if isCumulativeCounter k then MetricType.CumulativeCounter else MetricType.Gauge,
    value := v,
    dimensions := [] }

/-- Modelled from the spec: the outcome of the metrics request of the poller:
"the request fails/times out", or a response with its HTTP status and body. -/
inductive HttpOutcome where
  | failed (err : GoError)
  | response (status : Nat) (body : GoString)
deriving DecidableEq, Repr

/-- The float `1`. -/
def Float64.one : Float64 := { sign := false, exponent := 1023, fraction := 0 }

/-- The designated gating field of the payload, `master/elected`. -/
def electedKey : GoString := "master/elected".toList

/-- The key conversion "replacing path separators with dots". -/
def dottedKey (k : GoString) : GoString := ReplaceAllLiteral ['/'] ['.'] k

/-- Modelled from the spec: `getMetrics` of `mesos.go`, which is not among the
sources.  "If the response is not parseable as JSON, or the HTTP status is not
2xx, or the request fails/times out, return a distinguished "no data" result";
"inspect a designated gating field within the payload (e.g. `master/elected`);
if its value is not `1`, return an empty measurement set"; "otherwise, convert
every remaining key by replacing path separators with dots".  The result `none`
is the nil map; `decode` is the JSON decoder for a flat object of numbers. -/
def getMetrics (decode : GoString → Option (List (GoString × Float64)))
    (outcome : HttpOutcome) : Option (List (GoString × Float64)) :=
  match outcome with
  | HttpOutcome.failed _ => none
  | HttpOutcome.response status body =>
    if 200 ≤ status ∧ status < 300 then
      match decode body with
      | none => none
      | some raw =>
        if raw.lookup electedKey = some Float64.one then
          some (raw.map fun kv => (dottedKey kv.1, kv.2))
        else some []
    else none

/-- What one call of `Collect` did: whether it invoked `sendMetrics`, and the
measurements the tick put on the collector's channel. -/
structure CollectResult where
  sendMetricsCalled : Bool
  emitted : List Metric
deriving DecidableEq, Repr

/-- Modelled from the spec: `Collect` of the leader-gated poller in
`collector/mesos.go`, which is not among the sources; `mesos_test.go` shows only
that `Collect` reads the seam `externalIP`, of type `func() (string, error)`,
and calls the seam `sendMetrics`.  "Per tick: resolve this host's
externally-visible network address; resolve the current cluster leader's
address ...; if the two addresses do not match, abstain (no emission)", and
"any ... gating-resolution failure during a tick is ... treated as no
measurements this tick".  If they match, emission is attempted: `sendMetrics`
is invoked, and `sendMetrics` here stands for the measurements that call puts
on the channel. -/
def Collect (externalIP leader : GoString × Option GoError) (sendMetrics : List Metric) :
    CollectResult :=
  match externalIP, leader with
  | (ip, none), (leaderIP, none) =>
    if ip = leaderIP then { sendMetricsCalled := true, emitted := sendMetrics }
    else { sendMetricsCalled := false, emitted := [] }
  | _, _ => { sendMetricsCalled := false, emitted := [] }

/-! ## `fmt.Sprintf` without operands -/

/-- The characters that, right after `%`, open a flag, a width, a precision or an
argument index. -/
def isVerbModifier (c : Char) : Bool :=
  c == '#' || c == '+' || c == '-' || c == ' ' || (decide ('0' ≤ c) && decide (c ≤ '9')) ||
    c == '[' || c == '*' || c == '.'

/-- The library call `fmt.Sprintf(format)` without operands, on formats whose
verbs carry no flag, width, precision or argument index: plain text is copied,
`%%` gives `%`, a lone `%` at the end gives `%!(NOVERB)`, and any other verb
`c`, for which no operand is left, gives `%!c(MISSING)`.  The result is `none`
when a verb carries a modifier. -/
def sprintfPlain : GoString → Option GoString
  | [] => some []
  | c :: rest =>
    if c = '%' then
      match rest with
      | [] => some "%!(NOVERB)".toList
      | verb :: rest' =>
        if verb = '%' then (sprintfPlain rest').map fun out => '%' :: out
        else if isVerbModifier verb then none
        else (sprintfPlain rest').map fun out =>
          "%!".toList ++ verb :: "(MISSING)".toList ++ out
    else (sprintfPlain rest).map fun out => c :: out

/-- The library call `fmt.Sprintf(format)` without operands; a format with a
modified verb is left to `other`, the rest of the library's behaviour. -/
def sprintfNoOperands (other : Sprintf) : Sprintf := fun format =>
  match sprintfPlain format with
  | some out => out
  | none => other format

/-! ### The number a `float64` denotes, and truncation toward zero -/

/-- The significand of a finite value as an integer: `fraction` for a subnormal
(biased exponent 0), `2^52 + fraction` otherwise. -/
def Float64.significand (f : Float64) : Nat :=
  if f.exponent = 0 then f.fraction else 2 ^ 52 + f.fraction

/-- The power of two the significand is scaled by. -/
def Float64.scale (f : Float64) : Int :=
  if f.exponent = 0 then -1074 else (f.exponent : Int) - 1075

/-- The rational number a finite `float64` denotes. -/
def Float64.toRat (f : Float64) : ℚ :=
  (if f.sign then -1 else 1) * ((f.significand : ℚ) * (2 : ℚ) ^ f.scale)

/-- A number truncated toward zero: its integer part. -/
def truncateTowardZero (q : ℚ) : Int := if 0 ≤ q then ⌊q⌋ else ⌈q⌉

/-! ## Concrete surroundings for worked inputs -/

/-- An environment in which exactly the listed variables are set. -/
def envOf (vars : List (GoString × GoString)) : Env := fun name => vars.lookup name

/-- A file system holding exactly the listed files. -/
def fileSystemOf (files : List (GoString × GoString)) : FileSystem := fun path =>
  match files.lookup path with
  | some c => (c, none)
  | none => ([], some { msg := "open ".toList ++ path ++ ": no such file or directory".toList })

theorem sliceName_tokenOf (n : GoString) : sliceName (tokenOf n) = n := by
  simp [sliceName, tokenOf]

theorem matchesToken_tokenOf {n : GoString} (h : isName n = true) :
    matchesToken (tokenOf n) = true := by
  simp [matchesToken, sliceName_tokenOf, h]

theorem matchesToken_iff {t : GoString} :
    matchesToken t = true ↔ ∃ n, isName n = true ∧ t = tokenOf n := by
  constructor
  · intro h
    simp only [matchesToken, Bool.and_eq_true, beq_iff_eq] at h
    exact ⟨_, h.1, h.2⟩
  · rintro ⟨n, hn, rfl⟩
    exact matchesToken_tokenOf hn

theorem mem_substrings {t s : GoString} : t ∈ substrings s ↔ t <:+: s := by
  simp only [substrings, List.mem_flatMap, List.mem_tails, List.mem_inits]
  constructor
  · rintro ⟨u, hu, ht⟩
    exact ht.isInfix.trans hu.isInfix
  · rintro ⟨a, b, rfl⟩
    exact ⟨t ++ b, ⟨a, by simp⟩, List.prefix_append _ _⟩

theorem isNameChar_percent : isNameChar '%' = false := by decide

theorem matchTokenAt_eq_some {s m r : GoString} (h : matchTokenAt s = some (m, r)) :
    ∃ c run, s = '%' :: '%' :: c :: (run ++ '%' :: '%' :: r) ∧ isUpper c = true ∧
      (∀ x ∈ run, isNameChar x = true) ∧ 4 ≤ run.length ∧
      m = '%' :: '%' :: c :: (run ++ ['%', '%']) := by
  unfold matchTokenAt at h
  split at h
  · rename_i c rest
    split at h
    · rename_i hc
      split at h
      · rename_i hlen
        split at h
        · rename_i tail hd
          simp only [Option.some.injEq, Prod.mk.injEq] at h
          obtain ⟨rfl, rfl⟩ := h
          refine ⟨c, rest.takeWhile isNameChar, ?_, hc, ?_, hlen, rfl⟩
          · rw [← hd, List.takeWhile_append_dropWhile]
          · intro x hx
            exact List.mem_takeWhile_imp hx
        · exact absurd h (by simp)
      · exact absurd h (by simp)
    · exact absurd h (by simp)
  · exact absurd h (by simp)

theorem isNameChar_of_isUpper {c : Char} (h : isUpper c = true) : isNameChar c = true := by
  simp [isNameChar, h]

theorem isName_chars {n : GoString} (h : isName n = true) :
    ∃ c nr, n = c :: nr ∧ isUpper c = true ∧ (∀ x ∈ nr, isNameChar x = true) ∧
      4 ≤ nr.length := by
  cases n with
  | nil => simp [isName] at h
  | cons c nr =>
    simp only [isName, Bool.and_eq_true, List.all_eq_true, decide_eq_true_eq] at h
    exact ⟨c, nr, rfl, h.1.1, h.1.2, h.2⟩

theorem matchTokenAt_tokenOf {n : GoString} (h : isName n = true) (r : GoString) :
    matchTokenAt (tokenOf n ++ r) = some (tokenOf n, r) := by
  obtain ⟨c, nr, rfl, hc, hnr, hlen⟩ := isName_chars h
  have htw : (nr ++ '%' :: '%' :: r).takeWhile isNameChar = nr := by
    rw [List.takeWhile_append_of_pos hnr]
    simp [List.takeWhile, isNameChar_percent]
  have hdw : (nr ++ '%' :: '%' :: r).dropWhile isNameChar = '%' :: '%' :: r := by
    rw [List.dropWhile_append_of_pos hnr]
    simp [List.dropWhile, isNameChar_percent]
  simp [tokenOf, matchTokenAt, hc, htw, hdw, hlen]

theorem matchTokenAt_sound {s m r : GoString} (h : matchTokenAt s = some (m, r)) :
    s = m ++ r ∧ matchesToken m = true := by
  obtain ⟨c, run, hs, hc, hrun, hlen, hm⟩ := matchTokenAt_eq_some h
  refine ⟨by rw [hs, hm]; simp, ?_⟩
  rw [matchesToken_iff]
  refine ⟨c :: run, ?_, by rw [hm]; rfl⟩
  simp only [isName, Bool.and_eq_true, List.all_eq_true, decide_eq_true_eq]
  exact ⟨⟨hc, hrun⟩, hlen⟩

theorem findAllGo_mem : ∀ (s : GoString) (k : Nat) (v : GoString),
    v ∈ findAllGo k s → v <:+: s ∧ matchesToken v = true
  | [], k, v, h => by simp [findAllGo] at h
  | c :: cs, k + 1, v, h => by
    rw [findAllGo] at h
    obtain ⟨hi, hm⟩ := findAllGo_mem cs k v h
    exact ⟨hi.trans (List.suffix_cons c cs).isInfix, hm⟩
  | c :: cs, 0, v, h => by
    rw [findAllGo] at h
    split at h
    · rename_i m r hm
      rcases List.mem_cons.1 h with rfl | h'
      · obtain ⟨hs, ht⟩ := matchTokenAt_sound hm
        exact ⟨⟨[], r, by simp [hs]⟩, ht⟩
      · obtain ⟨hi, hm'⟩ := findAllGo_mem cs _ v h'
        exact ⟨hi.trans (List.suffix_cons c cs).isInfix, hm'⟩
    · obtain ⟨hi, hm'⟩ := findAllGo_mem cs _ v h
      exact ⟨hi.trans (List.suffix_cons c cs).isInfix, hm'⟩

theorem findAllGo_skip : ∀ (a b : GoString), findAllGo a.length (a ++ b) = findAllGo 0 b
  | [], b => rfl
  | x :: a, b => by
    simp only [List.length_cons, List.cons_append, findAllGo]
    exact findAllGo_skip a b

theorem replaceAllGo_skip (old new : GoString) :
    ∀ (a b : GoString), replaceAllGo old new a.length (a ++ b) = replaceAllGo old new 0 b
  | [], b => rfl
  | x :: a, b => by
    simp only [List.length_cons, List.cons_append, replaceAllGo]
    exact replaceAllGo_skip old new a b

theorem findAllGo_match {s m r : GoString} (h : matchTokenAt s = some (m, r)) :
    findAllGo 0 s = m :: findAllGo 0 r := by
  obtain ⟨c, run, hs, -, -, -, hm⟩ := matchTokenAt_eq_some h
  have hs' : s = '%' :: ('%' :: c :: (run ++ ['%', '%']) ++ r) := by rw [hs]; simp
  have hlen : m.length - 1 = ('%' :: c :: (run ++ ['%', '%'])).length := by rw [hm]; simp
  rw [hs'] at h ⊢
  rw [findAllGo, h]
  simp only
  rw [hlen, findAllGo_skip]

theorem replaceAllGo_match (old new r : GoString) (hne : old ≠ []) :
    replaceAllGo old new 0 (old ++ r) = new ++ replaceAllGo old new 0 r := by
  cases old with
  | nil => exact absurd rfl hne
  | cons x xs =>
    have hp : (x :: xs).isPrefixOf (x :: (xs ++ r)) = true := by
      rw [List.isPrefixOf_iff_prefix]
      exact ⟨r, rfl⟩
    simp only [List.cons_append]
    rw [replaceAllGo, if_pos hp]
    simp only [List.length_cons, Nat.add_sub_cancel]
    rw [replaceAllGo_skip]

theorem findAllGo_append_of_none : ∀ (pre rest : GoString),
    (∀ p1 p2, pre = p1 ++ p2 → p2 ≠ [] → matchTokenAt (p2 ++ rest) = none) →
    findAllGo 0 (pre ++ rest) = findAllGo 0 rest
  | [], _, _ => rfl
  | x :: pre, rest, h => by
    have h0 := h [] (x :: pre) rfl (by simp)
    simp only [List.cons_append] at h0 ⊢
    rw [findAllGo, h0]
    exact findAllGo_append_of_none pre rest
      (fun p1 p2 hp hne => h (x :: p1) p2 (by simp [hp]) hne)

theorem replaceAllGo_append_of_none (old new : GoString) : ∀ (pre rest : GoString),
    (∀ p1 p2, pre = p1 ++ p2 → p2 ≠ [] → ¬ old <+: p2 ++ rest) →
    replaceAllGo old new 0 (pre ++ rest) = pre ++ replaceAllGo old new 0 rest
  | [], _, _ => rfl
  | x :: pre, rest, h => by
    have h0 := h [] (x :: pre) rfl (by simp)
    have hp : old.isPrefixOf (x :: (pre ++ rest)) = false := by
      rw [Bool.eq_false_iff, Ne, List.isPrefixOf_iff_prefix]
      exact h0
    simp only [List.cons_append]
    rw [replaceAllGo, hp]
    simp only [Bool.false_eq_true, if_false, List.cons.injEq, true_and]
    exact replaceAllGo_append_of_none old new pre rest
      (fun p1 p2 hp hne => h (x :: p1) p2 (by simp [hp]) hne)

/-- A pattern match that begins inside a non-empty text `p2` followed by `%%` and
an uppercase letter ends no later than that `%%`. -/
theorem token_not_straddling {m r p2 X : GoString} {u : Char}
    (hm : matchesToken m = true) (hne : p2 ≠ [])
    (h : m ++ r = p2 ++ '%' :: '%' :: u :: X) : m <+: p2 ++ ['%', '%'] := by
  obtain ⟨n, hn, rfl⟩ := matchesToken_iff.1 hm
  obtain ⟨c, nr, rfl, hc, hnr, -⟩ := isName_chars hn
  have hall : ∀ x ∈ c :: nr, isNameChar x = true := by
    intro x hx
    rcases List.mem_cons.1 hx with rfl | hx
    · exact isNameChar_of_isUpper hc
    · exact hnr x hx
  have hpc : ¬ '%' ∈ c :: nr := fun hx => by
    have := hall _ hx
    rw [isNameChar_percent] at this
    exact Bool.false_ne_true this
  match p2, hne, h with
  | [a], _, h =>
    simp only [tokenOf, List.cons_append, List.nil_append, List.cons.injEq] at h
    exact absurd (List.mem_cons.2 (Or.inl h.2.2.1.symm)) hpc
  | a :: b :: p3, _, h =>
    simp only [tokenOf, List.cons_append, List.cons.injEq] at h
    obtain ⟨rfl, rfl, h⟩ := h
    have h' : (c :: nr) ++ '%' :: '%' :: r = p3 ++ '%' :: '%' :: u :: X := by
      simpa using h
    rcases List.append_eq_append_iff.1 h' with ⟨a', hp3, ha'⟩ | ⟨c', hn', hc'⟩
    · subst hp3
      have hgoal : ['%', '%'] <+: a' ++ ['%', '%'] := by
        match a', ha' with
        | [], _ => exact List.prefix_refl _
        | [x], ha' =>
          simp only [List.cons_append, List.nil_append, List.cons.injEq] at ha'
          rw [← ha'.1]
          exact ⟨['%'], rfl⟩
        | x :: y :: a'', ha' =>
          simp only [List.cons_append, List.cons.injEq] at ha'
          rw [← ha'.1, ← ha'.2.1]
          exact ⟨a'' ++ ['%', '%'], by simp⟩
      simp only [tokenOf, List.cons_append, List.cons_prefix_cons, true_and,
        List.append_assoc]
      have := (List.prefix_append_right_inj (c :: nr)).2 hgoal
      simpa using this
    · match c', hn', hc' with
      | [], hn', _ =>
        simp only [List.append_nil] at hn'
        subst hn'
        simp [tokenOf]
      | x :: c'', hn', hc' =>
        simp only [List.cons_append, List.cons.injEq] at hc'
        exact absurd (by rw [hn', ← hc'.1]; simp) hpc

theorem interpolate_single (env : Env) (N v pre post : GoString)
    (hN : isName N = true) (hv : env N = some v)
    (hpre : ∀ t, t <:+: pre ++ ['%', '%'] → matchesToken t = false)
    (hpost : ∀ t, t <:+: post → matchesToken t = false) :
    interpolate env (pre ++ tokenOf N ++ post) = pre ++ v ++ post := by
  obtain ⟨u, nr, hNeq, hu, -, -⟩ := isName_chars hN
  have htok : ∀ Y, tokenOf N ++ Y = '%' :: '%' :: u :: (nr ++ ['%', '%'] ++ Y) := by
    intro Y
    rw [hNeq]
    simp [tokenOf]
  -- no pattern match begins inside `pre`
  have hstart : ∀ p1 p2 t r, pre = p1 ++ p2 → p2 ≠ [] → matchesToken t = true →
      t ++ r = p2 ++ (tokenOf N ++ post) → False := by
    intro p1 p2 t r hp hne ht hsplit
    rw [htok] at hsplit
    have hpf := token_not_straddling ht hne hsplit
    have hinf : t <:+: pre ++ ['%', '%'] := by
      rw [hp, List.append_assoc]
      exact hpf.isInfix.trans (List.suffix_append p1 _).isInfix
    rw [hpre t hinf] at ht
    exact Bool.false_ne_true ht
  -- the scan finds the one token
  have hfind : FindAll (pre ++ tokenOf N ++ post) = [tokenOf N] := by
    unfold FindAll
    rw [List.append_assoc, findAllGo_append_of_none, findAllGo_match (matchTokenAt_tokenOf hN post)]
    · have hnil : findAllGo 0 post = [] := by
        apply List.eq_nil_iff_forall_not_mem.2
        intro w hw
        obtain ⟨hi, hm⟩ := findAllGo_mem post 0 w hw
        rw [hpost w hi] at hm
        exact Bool.false_ne_true hm
      rw [hnil]
    · intro p1 p2 hp hne
      cases hmt : matchTokenAt (p2 ++ (tokenOf N ++ post)) with
      | none => rfl
      | some mr =>
        obtain ⟨m, r⟩ := mr
        obtain ⟨hs, ht⟩ := matchTokenAt_sound hmt
        exact (hstart p1 p2 m r hp hne ht hs.symm).elim
  have hrepl : ReplaceAllLiteral (tokenOf N) v (pre ++ tokenOf N ++ post) = pre ++ v ++ post := by
    unfold ReplaceAllLiteral
    rw [List.append_assoc, replaceAllGo_append_of_none, replaceAllGo_match _ _ _ (by simp [tokenOf])]
    · have hid : replaceAllGo (tokenOf N) v 0 post = post := by
        have := replaceAllGo_append_of_none (tokenOf N) v post [] (by
          intro p1 p2 hp _ hpf
          rw [List.append_nil] at hpf
          have hinf : tokenOf N <:+: post := by
            rw [hp]
            exact hpf.isInfix.trans (List.suffix_append p1 p2).isInfix
          have := hpost _ hinf
          rw [matchesToken_tokenOf hN] at this
          exact Bool.false_ne_true this.symm)
        simpa [replaceAllGo] using this
      rw [hid, List.append_assoc]
    · intro p1 p2 hp hne ⟨r, hr⟩
      exact hstart p1 p2 (tokenOf N) r hp hne (matchesToken_tokenOf hN) hr
  unfold interpolate
  rw [hfind]
  simp only [List.foldl_cons, List.foldl_nil, interpolateStep, sliceName_tokenOf, hv]
  exact hrepl

theorem interpolate_untouched (env : Env) (c : GoString)
    (h : ∀ t, t <:+: c → matchesToken t = true → env (sliceName t) = none) :
    interpolate env c = c := by
  unfold interpolate FindAll
  have hstep : ∀ (l : List GoString), (∀ v ∈ l, env (sliceName v) = none) →
      l.foldl (interpolateStep env) c = c := by
    intro l
    induction l with
    | nil => intro _; rfl
    | cons v l ih =>
      intro hl
      rw [List.foldl_cons]
      have hv : interpolateStep env c v = c := by
        simp [interpolateStep, hl v (List.mem_cons_self _ _)]
      rw [hv]
      exact ih (fun w hw => hl w (List.mem_cons_of_mem _ hw))
  apply hstep
  intro v hv
  obtain ⟨hi, hm⟩ := findAllGo_mem c 0 v hv
  exact h v hi hm

/-! ### `strconv.ParseInt` against the literal grammar -/

theorem isDecimalDigit_iff {c : Char} :
    isDecimalDigit c = true ↔ 48 ≤ c.toNat ∧ c.toNat ≤ 57 := by
  simp only [isDecimalDigit, Bool.and_eq_true, decide_eq_true_eq]
  exact Iff.rfl

theorem digitValue_of_digit {c : Char} (h : isDecimalDigit c = true) :
    digitValue c = some (c.toNat - '0'.toNat) := by
  have h' : '0' ≤ c ∧ c ≤ '9' := by
    simpa [isDecimalDigit] using h
  simp [digitValue, h']

theorem digitValue_of_not_digit {c : Char} (h : isDecimalDigit c = false) :
    digitValue c = none ∨ ∃ v, digitValue c = some v ∧ 10 ≤ v := by
  have h' : ¬ ('0' ≤ c ∧ c ≤ '9') := by
    intro hc
    simp [isDecimalDigit, hc.1, hc.2] at h
  unfold digitValue
  rw [if_neg h']
  by_cases h1 : 'a' ≤ c ∧ c ≤ 'z'
  · rw [if_pos h1]
    exact Or.inr ⟨_, rfl, Nat.le_add_left _ _⟩
  · rw [if_neg h1]
    by_cases h2 : 'A' ≤ c ∧ c ≤ 'Z'
    · rw [if_pos h2]
      exact Or.inr ⟨_, rfl, Nat.le_add_left _ _⟩
    · rw [if_neg h2]
      exact Or.inl rfl

theorem parseUintLoop_not_digit (n : Nat) {d : Char} (ds : GoString)
    (h : isDecimalDigit d = false) :
    parseUintLoop n (d :: ds) = (0, some NumError.ErrSyntax) := by
  rcases digitValue_of_not_digit h with h0 | ⟨v, hv, hle⟩
  · simp [parseUintLoop, h0]
  · simp [parseUintLoop, hv, hle]

theorem decimalValue_cons (n : Nat) (d : Char) (ds : GoString) :
    decimalValue n (d :: ds) = decimalValue (n * 10 + (d.toNat - '0'.toNat)) ds := rfl

theorem le_decimalValue : ∀ (ds : GoString) (n : Nat), n ≤ decimalValue n ds
  | [], n => Nat.le_refl n
  | d :: ds, n => by
    rw [decimalValue_cons]
    have := le_decimalValue ds (n * 10 + (d.toNat - '0'.toNat))
    omega

theorem parseUintLoop_digits : ∀ (ds : GoString) (n : Nat), n ≤ maxUint64 →
    ds.all isDecimalDigit = true →
    parseUintLoop n ds =
      if decimalValue n ds ≤ maxUint64 then (decimalValue n ds, none)
      else (maxUint64, some NumError.ErrRange)
  | [], n, hn, _ => by
    simp [parseUintLoop, decimalValue, hn]
  | d :: ds, n, hn, hall => by
    have hd : isDecimalDigit d = true := by
      simp only [List.all_cons, Bool.and_eq_true] at hall
      exact hall.1
    have hds : ds.all isDecimalDigit = true := by
      simp only [List.all_cons, Bool.and_eq_true] at hall
      exact hall.2
    have hrange := isDecimalDigit_iff.1 hd
    have h48 : '0'.toNat = 48 := rfl
    have hmono := le_decimalValue ds (n * 10 + (d.toNat - '0'.toNat))
    rw [decimalValue_cons]
    unfold parseUintLoop
    rw [digitValue_of_digit hd]
    simp only [maxUint64] at hn hmono ⊢
    rw [h48] at hmono ⊢
    have hv : ¬ 10 ≤ d.toNat - 48 := by omega
    rw [if_neg hv]
    by_cases hcut : (2 ^ 64 - 1) / 10 + 1 ≤ n
    · rw [if_pos hcut, if_neg (by omega)]
    · rw [if_neg hcut]
      have hmul : n * 10 % 2 ^ 64 = n * 10 := Nat.mod_eq_of_lt (by omega)
      rw [hmul]
      by_cases hov : n * 10 + (d.toNat - 48) < 2 ^ 64
      · have hadd : (n * 10 + (d.toNat - 48)) % 2 ^ 64 = n * 10 + (d.toNat - 48) :=
          Nat.mod_eq_of_lt hov
        rw [hadd, if_neg (by omega)]
        have := parseUintLoop_digits ds (n * 10 + (d.toNat - 48)) (by simp only [maxUint64]; omega) hds
        simp only [maxUint64] at this
        exact this
      · have hadd : (n * 10 + (d.toNat - 48)) % 2 ^ 64 = n * 10 + (d.toNat - 48) - 2 ^ 64 := by
          omega
        rw [hadd, if_pos (by omega), if_neg (by omega)]

theorem parseUintLoop_not_digits : ∀ (ds : GoString) (n : Nat), n ≤ maxUint64 →
    ds.all isDecimalDigit = false →
    parseUintLoop n ds = (0, some NumError.ErrSyntax) ∨
      parseUintLoop n ds = (maxUint64, some NumError.ErrRange)
  | [], n, _, hall => by simp at hall
  | d :: ds, n, hn, hall => by
    cases hd : isDecimalDigit d with
    | false => exact Or.inl (parseUintLoop_not_digit n ds hd)
    | true =>
      have hds : ds.all isDecimalDigit = false := by
        simpa [List.all_cons, hd] using hall
      have hrange := isDecimalDigit_iff.1 hd
      have h48 : '0'.toNat = 48 := rfl
      unfold parseUintLoop
      rw [digitValue_of_digit hd]
      simp only [maxUint64] at hn ⊢
      rw [h48]
      have hv : ¬ 10 ≤ d.toNat - 48 := by omega
      rw [if_neg hv]
      by_cases hcut : (2 ^ 64 - 1) / 10 + 1 ≤ n
      · rw [if_pos hcut]
        exact Or.inr rfl
      · rw [if_neg hcut]
        split
        · exact Or.inr rfl
        · rename_i hno
          have := parseUintLoop_not_digits ds ((n * 10 % 2 ^ 64 + (d.toNat - 48)) % 2 ^ 64)
            (by simp only [maxUint64]; omega) hds
          simp only [maxUint64] at this
          exact this

theorem ParseUint_of_literal {ds : GoString} {v : Nat} (h : unsignedLiteral ds = some v) :
    ParseUint ds = if v ≤ maxUint64 then (v, none) else (maxUint64, some NumError.ErrRange) := by
  unfold unsignedLiteral at h
  split at h
  · rename_i hc
    simp only [Option.some.injEq] at h
    subst h
    unfold ParseUint
    rw [if_neg hc.1]
    exact parseUintLoop_digits ds 0 (Nat.zero_le _) hc.2
  · exact absurd h (by simp)

theorem ParseUint_of_not_literal {ds : GoString} (h : unsignedLiteral ds = none) :
    ParseUint ds = (0, some NumError.ErrSyntax) ∨
      ParseUint ds = (maxUint64, some NumError.ErrRange) := by
  unfold unsignedLiteral at h
  split at h
  · exact absurd h (by simp)
  · rename_i hc
    unfold ParseUint
    by_cases he : ds = []
    · rw [if_pos he]
      exact Or.inl rfl
    · rw [if_neg he]
      apply parseUintLoop_not_digits ds 0 (Nat.zero_le _)
      cases hall : ds.all isDecimalDigit with
      | false => rfl
      | true => exact absurd ⟨he, hall⟩ hc

theorem wrapInt64_of_range {x : Int} (h1 : -(2 ^ 63) ≤ x) (h2 : x < 2 ^ 63) :
    wrapInt64 x = x := by
  unfold wrapInt64
  omega

/-- What `GetAsInt` makes of the signed parse, in terms of the digit string. -/
theorem parseIntSigned_result (neg : Bool) (digits : GoString) (d : Int) :
    (match parseIntSigned neg digits with
      | (fromString, none) => wrapInt64 fromString
      | (_, some _) => d) =
    (match unsignedLiteral digits with
      | some v =>
        if neg then (if v ≤ 2 ^ 63 then -(v : Int) else d)
        else (if v < 2 ^ 63 then (v : Int) else d)
      | none => d) := by
  have hrange : ∀ un : Nat, un = maxUint64 →
      (match (if !neg && decide (2 ^ 63 ≤ un) then
            ((2 ^ 63 - 1 : Int), some NumError.ErrRange)
          else if neg && decide (2 ^ 63 < un) then (-(2 ^ 63), some NumError.ErrRange)
          else (if neg then wrapInt64 (-(wrapInt64 un)) else wrapInt64 un, none)) with
        | (fromString, none) => wrapInt64 fromString
        | (_, some _) => d) = d := by
    intro un hun
    subst hun
    cases neg <;> simp [maxUint64]
  cases hlit : unsignedLiteral digits with
  | none =>
    rcases ParseUint_of_not_literal hlit with h | h
    · simp [parseIntSigned, h]
    · simp only [parseIntSigned, h]
      exact hrange _ rfl
  | some v =>
    have hp := ParseUint_of_literal hlit
    by_cases hv : v ≤ maxUint64
    · rw [if_pos hv] at hp
      simp only [parseIntSigned, hp]
      simp only [maxUint64] at hv
      cases neg with
      | false =>
        simp only [Bool.not_false, Bool.true_and, decide_eq_true_eq, Bool.false_and,
          Bool.false_eq_true, if_false]
        by_cases h63 : v < 2 ^ 63
        · have hn : ¬ ((2 : Nat) ^ 63 ≤ v) := by omega
          have h1 : wrapInt64 (v : Int) = (v : Int) := wrapInt64_of_range (by omega) (by omega)
          rw [if_neg hn, if_pos h63]
          simp only [h1]
        · have hn : (2 : Nat) ^ 63 ≤ v := by omega
          rw [if_pos hn, if_neg h63]
      | true =>
        simp only [Bool.not_true, Bool.false_and, Bool.false_eq_true, if_false,
          Bool.true_and, decide_eq_true_eq, if_true]
        by_cases h63 : v ≤ 2 ^ 63
        · have hn : ¬ ((2 : Nat) ^ 63 < v) := by omega
          have h1 : wrapInt64 (-(wrapInt64 (v : Int))) = -(v : Int) := by
            unfold wrapInt64
            omega
          have h2 : wrapInt64 (-(v : Int)) = -(v : Int) := wrapInt64_of_range (by omega) (by omega)
          rw [if_neg hn, if_pos h63]
          simp only [h1, h2]
        · have hn : (2 : Nat) ^ 63 < v := by omega
          rw [if_pos hn, if_neg h63]
    · rw [if_neg hv] at hp
      simp only [parseIntSigned, hp]
      rw [hrange _ rfl]
      simp only [maxUint64] at hv
      have h1 : ¬ (v < 2 ^ 63) := by omega
      have h2 : ¬ (v ≤ 2 ^ 63) := by omega
      cases neg with
      | false => simp only [Bool.false_eq_true, if_false, if_neg h1]
      | true => simp only [if_true, if_neg h2]

theorem GetAsInt_string_eq (s : GoString) (d : Int) :
    GetAsInt (Value.string s) d = (int64Literal s).getD d := by
  have hfold : ∀ (neg : Bool) (digits : GoString) (o : Option Int),
      (match unsignedLiteral digits with
        | some v =>
          if neg then (if v ≤ 2 ^ 63 then -(v : Int) else d)
          else (if v < 2 ^ 63 then (v : Int) else d)
        | none => d) = o.getD d →
      (match parseIntSigned neg digits with
        | (fromString, none) => wrapInt64 fromString
        | (_, some _) => d) = o.getD d := by
    intro neg digits o h
    rw [parseIntSigned_result]
    exact h
  cases s with
  | nil => simp [GetAsInt, ParseInt, int64Literal, unsignedLiteral]
  | cons c rest =>
    simp only [GetAsInt, ParseInt]
    by_cases hplus : c = '+'
    · subst hplus
      simp only [if_true]
      apply hfold
      simp only [int64Literal, Bool.false_eq_true, if_false]
      cases unsignedLiteral rest with
      | none => rfl
      | some v => dsimp only; split_ifs <;> rfl
    · by_cases hminus : c = '-'
      · subst hminus
        simp only [if_neg hplus, if_true]
        apply hfold
        simp only [int64Literal, if_true]
        cases unsignedLiteral rest with
        | none => rfl
        | some v => dsimp only; split_ifs <;> rfl
      · simp only [if_neg hplus, if_neg hminus]
        apply hfold
        have hlit : int64Literal (c :: rest) =
            (match unsignedLiteral (c :: rest) with
              | some v => if v < 2 ^ 63 then some (v : Int) else none
              | none => none) := by
          unfold int64Literal
          split
          · rename_i heq
            simp only [List.cons.injEq] at heq
            exact absurd heq.1 hminus
          · rename_i heq
            simp only [List.cons.injEq] at heq
            exact absurd heq.1 hplus
          · rfl
        rw [hlit]
        simp only [Bool.false_eq_true, if_false]
        cases unsignedLiteral (c :: rest) with
        | none => rfl
        | some v => dsimp only; split_ifs <;> rfl

/-! ### Checking a concrete text substring by substring -/

theorem no_token_of_substrings {s : GoString}
    (h : (substrings s).all (fun t => !matchesToken t) = true) :
    ∀ t, t <:+: s → matchesToken t = false := by
  intro t ht
  have := List.all_eq_true.1 h t (mem_substrings.2 ht)
  simpa using this

theorem unset_of_substrings {env : Env} {s : GoString}
    (h : (substrings s).all (fun t => !matchesToken t || (env (sliceName t)).isNone) = true) :
    ∀ t, t <:+: s → matchesToken t = true → env (sliceName t) = none := by
  intro t ht hm
  have := List.all_eq_true.1 h t (mem_substrings.2 ht)
  simpa [hm] using this

/-! ## The claims -/

/-- C1 (amended): for every name `N` matching `[A-Z][A-Z0-9_]{4,}`, every
environment in which `N` is set to `v`, and every file content
`pre ++ "%%N%%" ++ post` such that neither `pre ++ "%%"` nor `post` contains a
substring matching the token pattern, `interpolateEnvvarsIntoConfigRead` returns
exactly `pre ++ v ++ post` and no error, and `ReadConfig` and
`ReadCollectorConfig` hand exactly this text to the JSON decoder. -/
theorem interpolateEnvvarsIntoConfigRead_replaces_token
    (fs : FileSystem) (env : Env) (umConfig : Unmarshal Config)
    (umCollector : Unmarshal (List (GoString × Value)))
    (configFile N v pre post : GoString)
    (hfile : fs configFile = (pre ++ tokenOf N ++ post, none))
    (hN : isName N = true) (hv : env N = some v)
    (hpre : ∀ t, t <:+: pre ++ ['%', '%'] → matchesToken t = false)
    (hpost : ∀ t, t <:+: post → matchesToken t = false) :
    interpolateEnvvarsIntoConfigRead fs env configFile = (pre ++ v ++ post, none) ∧
    ReadConfig fs env umConfig configFile = umConfig (pre ++ v ++ post) Config.zero ∧
    ReadCollectorConfig fs env umCollector configFile = umCollector (pre ++ v ++ post) [] := by
  have h1 : interpolateEnvvarsIntoConfigRead fs env configFile = (pre ++ v ++ post, none) := by
    unfold interpolateEnvvarsIntoConfigRead
    rw [hfile]
    simp only
    rw [interpolate_single env N v pre post hN hv hpre hpost]
  refine ⟨h1, ?_, ?_⟩
  · unfold ReadConfig
    rw [h1]
    simp only
    rcases umConfig (pre ++ v ++ post) Config.zero with ⟨c, _ | e⟩ <;> rfl
  · unfold ReadCollectorConfig
    rw [h1]
    simp only
    rcases umCollector (pre ++ v ++ post) [] with ⟨c, _ | e⟩ <;> rfl

set_option maxRecDepth 100000 in
/-- C1, worked input: the file `{"prefix": "%%PREFIX%%"}` with `PREFIX=100%`
is read as `{"prefix": "100%"}`. -/
theorem interpolateEnvvarsIntoConfigRead_replaces_token_witness :
    interpolateEnvvarsIntoConfigRead
        (fileSystemOf [("/etc/fullerite.conf".toList, "\x7b\"prefix\": \"%%PREFIX%%\"\x7d".toList)])
        (envOf [("PREFIX".toList, "100%".toList)]) "/etc/fullerite.conf".toList =
      ("\x7b\"prefix\": \"100%\"\x7d".toList, none) :=
  (interpolateEnvvarsIntoConfigRead_replaces_token
    (fileSystemOf [("/etc/fullerite.conf".toList, "\x7b\"prefix\": \"%%PREFIX%%\"\x7d".toList)])
    (envOf [("PREFIX".toList, "100%".toList)]) (fun _ c => (c, none)) (fun _ c => (c, none))
    "/etc/fullerite.conf".toList "PREFIX".toList "100%".toList
    "\x7b\"prefix\": \"".toList "\"\x7d".toList
    (by rfl) (by decide) (by decide)
    (no_token_of_substrings (by decide)) (no_token_of_substrings (by decide))).1

set_option maxRecDepth 100000 in
/-- C1, as stated, fails: with `pre = "%%ABCDE"`, `N = "NAMEX"` set to `x` and an
empty `post`, neither `pre` nor `post` contains a substring matching the token
pattern, yet the file `%%ABCDE%%NAMEX%%` is returned unchanged instead of
`%%ABCDEx`: the scan matches `%%ABCDE%%` first and the token is never found. -/
theorem interpolateEnvvarsIntoConfigRead_straddling_match :
    isName "NAMEX".toList = true ∧
    envOf [("NAMEX".toList, "x".toList)] "NAMEX".toList = some "x".toList ∧
    (∀ t, t <:+: "%%ABCDE".toList → matchesToken t = false) ∧
    (∀ t, t <:+: ([] : GoString) → matchesToken t = false) ∧
    interpolateEnvvarsIntoConfigRead
        (fileSystemOf [("/etc/fullerite.conf".toList,
          "%%ABCDE".toList ++ tokenOf "NAMEX".toList ++ [])])
        (envOf [("NAMEX".toList, "x".toList)]) "/etc/fullerite.conf".toList =
      ("%%ABCDE%%NAMEX%%".toList, none) ∧
    ("%%ABCDE%%NAMEX%%".toList, (none : Option GoError)) ≠
      ("%%ABCDE".toList ++ "x".toList ++ [], none) :=
  ⟨by decide, by decide, no_token_of_substrings (by decide),
    no_token_of_substrings (by decide), by decide, by decide⟩

/-- C2: if no substring of the file content that matches
`%%[A-Z][A-Z0-9_]{4,}%%` names a variable that is set, then
`interpolateEnvvarsIntoConfigRead` returns the content byte for byte. -/
theorem interpolateEnvvarsIntoConfigRead_untouched
    (fs : FileSystem) (env : Env) (configFile c : GoString)
    (hfile : fs configFile = (c, none))
    (h : ∀ t, t <:+: c → matchesToken t = true → env (sliceName t) = none) :
    interpolateEnvvarsIntoConfigRead fs env configFile = (c, none) := by
  unfold interpolateEnvvarsIntoConfigRead
  rw [hfile]
  simp only
  rw [interpolate_untouched env c h]

set_option maxRecDepth 100000 in
/-- C2, worked input: an unset well-formed token, a lowercase name, a short
name, a name starting with a digit and a single-`%` delimiter are all left as
they are, although variables of the malformed names are set. -/
theorem interpolateEnvvarsIntoConfigRead_untouched_witness :
    interpolateEnvvarsIntoConfigRead
        (fileSystemOf [("/etc/fullerite.conf".toList,
          "%%UNSET_VAR%% %%lower%% %%TS1%% %%1ABCD%% %SINGLE%".toList)])
        (envOf [("lower".toList, "a".toList), ("TS1".toList, "b".toList),
          ("1ABCD".toList, "c".toList), ("SINGLE".toList, "d".toList)])
        "/etc/fullerite.conf".toList =
      ("%%UNSET_VAR%% %%lower%% %%TS1%% %%1ABCD%% %SINGLE%".toList, none) :=
  interpolateEnvvarsIntoConfigRead_untouched
    (fileSystemOf [("/etc/fullerite.conf".toList,
      "%%UNSET_VAR%% %%lower%% %%TS1%% %%1ABCD%% %SINGLE%".toList)])
    (envOf [("lower".toList, "a".toList), ("TS1".toList, "b".toList),
      ("1ABCD".toList, "c".toList), ("SINGLE".toList, "d".toList)])
    "/etc/fullerite.conf".toList
    "%%UNSET_VAR%% %%lower%% %%TS1%% %%1ABCD%% %SINGLE%".toList
    (by rfl) (unset_of_substrings (by decide))

/-- C3: on a string, `GetAsInt(s, d)` is `n` when `s` is a valid base-10 literal
of the signed 64-bit integer `n`, and `d` for every other string (among them
`notanint`, `10.5`, the empty string and ` 10`). -/
theorem GetAsInt_text (s : GoString) (d : Int) :
    GetAsInt (Value.string s) d =
      (match int64Literal s with
        | some n => n
        | none => d) ∧
    int64Literal "10".toList = some 10 ∧
    int64Literal "notanint".toList = none ∧ int64Literal "10.5".toList = none ∧
    int64Literal "".toList = none ∧ int64Literal " 10".toList = none := by
  refine ⟨?_, by decide, by decide, by decide, by decide, by decide⟩
  rw [GetAsInt_string_eq]
  cases int64Literal s <;> rfl

/-- C4, the failing input: `GetAsSlice` on the generic list `[1]` (a JSON number
decodes as `float64`) ends in a run-time panic at the unchecked assertion
`value.(string)` instead of returning a slice. -/
theorem GetAsSlice_panics_on_number (unmarshal : Unmarshal (List GoString)) :
    GetAsSlice unmarshal (Value.sliceAny [Value.float64 (Float64.ofInt 1)]) =
      Except.error
        { msg := "interface conversion: interface {} is float64, not string".toList } := by
  rfl

/-- C5 (amended): an integer-typed value (`int`, `int32`, `int64`) passes through
`GetAsInt` whatever the default, and a `float64` value passes through
`GetAsFloat` whatever the default; on an integer-typed value `GetAsFloat`
returns the default. -/
theorem numeric_values_pass_through (parseFloat : ParseFloat) (n n32 n64 d : Int)
    (x dflt : Float64)
    (h32 : -(2 ^ 31) ≤ n32 ∧ n32 < 2 ^ 31) (h64 : -(2 ^ 63) ≤ n64 ∧ n64 < 2 ^ 63) :
    GetAsInt (Value.int n) d = n ∧ GetAsInt (Value.int32 n32) d = n32 ∧
    GetAsInt (Value.int64 n64) d = n64 ∧
    GetAsFloat parseFloat (Value.float64 x) dflt = x ∧
    GetAsFloat parseFloat (Value.int n) dflt = dflt ∧
    GetAsFloat parseFloat (Value.int32 n32) dflt = dflt ∧
    GetAsFloat parseFloat (Value.int64 n64) dflt = dflt := by
  refine ⟨rfl, ?_, ?_, rfl, rfl, rfl, rfl⟩
  · exact wrapInt64_of_range (by omega) (by omega)
  · exact wrapInt64_of_range h64.1 h64.2

/-- C5, worked input: the integers 12, -7 and 2^40 and the float 12.0 over the
defaults 123 and 123.0. -/
theorem numeric_values_pass_through_witness :
    GetAsInt (Value.int 12) 123 = 12 ∧ GetAsInt (Value.int32 (-7)) 123 = -7 ∧
    GetAsInt (Value.int64 (2 ^ 40)) 123 = 2 ^ 40 ∧
    GetAsFloat (fun _ => (Float64.ofInt 0, some NumError.ErrSyntax))
      (Value.float64 (Float64.ofInt 12)) (Float64.ofInt 123) = Float64.ofInt 12 ∧
    GetAsFloat (fun _ => (Float64.ofInt 0, some NumError.ErrSyntax))
      (Value.int 12) (Float64.ofInt 123) = Float64.ofInt 123 ∧
    GetAsFloat (fun _ => (Float64.ofInt 0, some NumError.ErrSyntax))
      (Value.int32 (-7)) (Float64.ofInt 123) = Float64.ofInt 123 ∧
    GetAsFloat (fun _ => (Float64.ofInt 0, some NumError.ErrSyntax))
      (Value.int64 (2 ^ 40)) (Float64.ofInt 123) = Float64.ofInt 123 :=
  numeric_values_pass_through (fun _ => (Float64.ofInt 0, some NumError.ErrSyntax))
    12 (-7) (2 ^ 40) 123 (Float64.ofInt 12) (Float64.ofInt 123)
    ⟨by decide, by decide⟩ ⟨by decide, by decide⟩

/-- C5, as stated, fails: `GetAsFloat` on the `int` 12 with default 123.0 returns
the default 123.0, which is not 12 converted to `float64`. -/
theorem GetAsFloat_int_returns_default :
    GetAsFloat (fun _ => (Float64.ofInt 0, some NumError.ErrSyntax))
      (Value.int 12) (Float64.ofInt 123) = Float64.ofInt 123 ∧
    Float64.ofInt 123 ≠ Float64.ofInt 12 := by
  refine ⟨rfl, by decide⟩

/-- C6: `GetAsFloat` returns a `float64` value as it is; on a string it returns
the parsed value when `strconv.ParseFloat` reports no error and the default
when it reports one. -/
theorem GetAsFloat_contract (parseFloat : ParseFloat) (f d : Float64) (s : GoString) :
    GetAsFloat parseFloat (Value.float64 f) d = f ∧
    (∀ x, parseFloat s = (x, none) → GetAsFloat parseFloat (Value.string s) d = x) ∧
    (∀ x e, parseFloat s = (x, some e) → GetAsFloat parseFloat (Value.string s) d = d) := by
  refine ⟨rfl, ?_, ?_⟩
  · intro x hx
    simp [GetAsFloat, hx]
  · intro x e hx
    simp [GetAsFloat, hx]

/-- C6, worked input: with a parser that reads `10` as 10.0 and rejects
`notanint`, the defaults 123.0 gives way to 10.0 and stands for `notanint`. -/
theorem GetAsFloat_contract_witness :
    GetAsFloat (fun s => if s = "10".toList then (Float64.ofInt 10, none)
        else (Float64.ofInt 0, some NumError.ErrSyntax))
      (Value.string "10".toList) (Float64.ofInt 123) = Float64.ofInt 10 ∧
    GetAsFloat (fun s => if s = "10".toList then (Float64.ofInt 10, none)
        else (Float64.ofInt 0, some NumError.ErrSyntax))
      (Value.string "notanint".toList) (Float64.ofInt 123) = Float64.ofInt 123 :=
  ⟨(GetAsFloat_contract (fun s => if s = "10".toList then (Float64.ofInt 10, none)
        else (Float64.ofInt 0, some NumError.ErrSyntax))
      (Float64.ofInt 0) (Float64.ofInt 123) "10".toList).2.1 (Float64.ofInt 10) (by decide),
   (GetAsFloat_contract (fun s => if s = "10".toList then (Float64.ofInt 10, none)
        else (Float64.ofInt 0, some NumError.ErrSyntax))
      (Float64.ofInt 0) (Float64.ofInt 123) "notanint".toList).2.2 (Float64.ofInt 0)
      NumError.ErrSyntax (by decide)⟩

/-- C7: for a Debug handler built with any constructor defaults and any two
strings `si`, `sb` that are base-10 literals of the integers `i` and `b`,
`Configure` of a map holding `si` under `interval` and `sb` under
`max_buffer_size` leaves `Interval() = i` and `MaxBufferSize() = b`. -/
theorem Debug_Configure_coerces_text (channel : Nat) (i0 b0 : Int)
    (log : List (GoString × GoString)) (configMap : List (GoString × Value))
    (si sb : GoString) (i b : Int)
    (hi : int64Literal si = some i) (hb : int64Literal sb = some b)
    (hmi : configMap.lookup "interval".toList = some (Value.string si))
    (hmb : configMap.lookup "max_buffer_size".toList = some (Value.string sb)) :
    ((NewDebug channel i0 b0 log).Configure configMap).Interval = i ∧
    ((NewDebug channel i0 b0 log).Configure configMap).MaxBufferSize = b := by
  simp only [Debug.Configure, Debug.Interval, Debug.MaxBufferSize,
    BaseHandler.configureCommonParams, hmi, hmb, GetAsInt_string_eq, hi, hb, Option.getD_some]
  exact ⟨trivial, trivial⟩

/-- C7, worked input: `"10"` and `"100"` over the defaults 12 and 13 give 10 and
100. -/
theorem Debug_Configure_coerces_text_witness :
    ((NewDebug 0 12 13 [("testing".toList, "debug_handler".toList)]).Configure
        [("interval".toList, Value.string "10".toList),
         ("max_buffer_size".toList, Value.string "100".toList)]).Interval = 10 ∧
    ((NewDebug 0 12 13 [("testing".toList, "debug_handler".toList)]).Configure
        [("interval".toList, Value.string "10".toList),
         ("max_buffer_size".toList, Value.string "100".toList)]).MaxBufferSize = 100 :=
  Debug_Configure_coerces_text 0 12 13 [("testing".toList, "debug_handler".toList)]
    [("interval".toList, Value.string "10".toList),
     ("max_buffer_size".toList, Value.string "100".toList)]
    "10".toList "100".toList 10 100 (by decide) (by decide) (by rfl) (by rfl)

/-- C8: `NewDebug(ch, i, b, log)` followed by `Configure` of an empty option map
leaves the handler as constructed: `Interval() = i`, `MaxBufferSize() = b`, and
name, channel and log unchanged. -/
theorem Debug_Configure_empty (channel : Nat) (i b : Int) (log : List (GoString × GoString)) :
    (NewDebug channel i b log).Configure [] = NewDebug channel i b log ∧
    ((NewDebug channel i b log).Configure []).Interval = i ∧
    ((NewDebug channel i b log).Configure []).MaxBufferSize = b ∧
    ((NewDebug channel i b log).Configure []).name = "Debug".toList ∧
    ((NewDebug channel i b log).Configure []).channel = channel ∧
    ((NewDebug channel i b log).Configure []).log = log :=
  ⟨rfl, rfl, rfl, rfl, rfl, rfl⟩

/-- C9: `Debug.emitMetrics` returns false if and only if the batch is empty, and
for an empty batch it writes the start message and the skip message and nothing
else. -/
theorem Debug_emitMetrics_reports_emission (h : Debug) (marshal : Marshal) (sprintf : Sprintf)
    (metrics : List Metric) :
    ((h.emitMetrics marshal sprintf metrics).2 = false ↔ metrics = []) ∧
    (h.emitMetrics marshal sprintf []).1 =
      [{ level := LogLevel.Info, msg := "Starting to emit 0 metrics".toList },
       { level := LogLevel.Warn, msg := "Skipping send because of an empty payload".toList }] := by
  refine ⟨?_, rfl⟩
  cases metrics with
  | nil => simp [Debug.emitMetrics]
  | cons m ms => simp [Debug.emitMetrics]

/-- C10, the failing input: with the configured directory `/etc/my conf` and the
collector name `Test`, `GetCollectorConfig` reads `/etc/my_conf/Test.conf`: the
blank of the directory is rewritten too, so the file read is not the one under
the configured directory. -/
theorem GetCollectorConfig_rewrites_directory (fs : FileSystem) (env : Env)
    (unmarshal : Unmarshal (List (GoString × Value))) :
    Config.GetCollectorConfig { Config.zero with CollectorsConfigPath := "/etc/my conf".toList }
        fs env unmarshal "Test".toList =
      ReadCollectorConfig fs env unmarshal "/etc/my_conf/Test.conf".toList ∧
    "/etc/my_conf/Test.conf".toList ≠
      "/etc/my conf".toList ++ "/".toList ++ "Test".toList ++ ".conf".toList := by
  refine ⟨?_, by decide⟩
  have hpath : collectorConfigFile
      { Config.zero with CollectorsConfigPath := "/etc/my conf".toList } "Test".toList =
      "/etc/my_conf/Test.conf".toList := by decide
  unfold Config.GetCollectorConfig
  rw [hpath]

theorem mapM_assertString_strings (xs : List GoString) :
    (xs.map Value.string).mapM assertString = Except.ok xs := by
  induction xs with
  | nil => rfl
  | cons x xs ih =>
    rw [List.map_cons, List.mapM_cons, ih]
    rfl

/-- C11: `ReadConfig` and `ReadCollectorConfig` return a non-nil error if and
only if the file cannot be read or the JSON decoder rejects the interpolated
contents; on a read error the result is the zero configuration with the read
error, whatever the decoder would do. -/
theorem ReadConfig_reports_errors (fs : FileSystem) (env : Env) (umConfig : Unmarshal Config)
    (umCollector : Unmarshal (List (GoString × Value))) (configFile : GoString) :
    ((ReadConfig fs env umConfig configFile).2 ≠ none ↔
      (fs configFile).2 ≠ none ∨
        (umConfig (interpolate env (fs configFile).1) Config.zero).2 ≠ none) ∧
    ((ReadCollectorConfig fs env umCollector configFile).2 ≠ none ↔
      (fs configFile).2 ≠ none ∨
        (umCollector (interpolate env (fs configFile).1) []).2 ≠ none) ∧
    (∀ e, (fs configFile).2 = some e →
      ReadConfig fs env umConfig configFile = (Config.zero, some e) ∧
      ReadCollectorConfig fs env umCollector configFile = ([], some e)) := by
  unfold ReadConfig ReadCollectorConfig interpolateEnvvarsIntoConfigRead
  rcases hfs : fs configFile with ⟨c, _ | e⟩
  · refine ⟨?_, ?_, fun e he => by simp at he⟩
    · rcases hu : umConfig (interpolate env c) Config.zero with ⟨r, _ | e'⟩ <;> simp [hu]
    · rcases hu : umCollector (interpolate env c) [] with ⟨r, _ | e'⟩ <;> simp [hu]
  · refine ⟨by simp, by simp, ?_⟩
    intro e' he'
    simp only [Option.some.injEq] at he'
    subst he'
    exact ⟨rfl, rfl⟩

/-- C11, worked input: a file that does not exist gives the zero configuration
and the read error, with a decoder that would accept anything. -/
theorem ReadConfig_reports_errors_witness :
    ReadConfig (fileSystemOf []) (envOf []) (fun _ c => (c, none)) "/nonexistent".toList =
      (Config.zero,
        some { msg := "open /nonexistent: no such file or directory".toList }) ∧
    ReadCollectorConfig (fileSystemOf []) (envOf []) (fun _ c => (c, none))
        "/nonexistent".toList =
      ([], some { msg := "open /nonexistent: no such file or directory".toList }) :=
  (ReadConfig_reports_errors (fileSystemOf []) (envOf []) (fun _ c => (c, none))
    (fun _ c => (c, none)) "/nonexistent".toList).2.2
    { msg := "open /nonexistent: no such file or directory".toList } (by rfl)

/-- C12: on a generic map `GetAsMap` returns exactly the entries whose value is a
string, with the same key and the same string; a `map[string]string` is returned
as it is; a value that is neither a string nor a map gives the empty map. -/
theorem GetAsMap_generic_map (unmarshal : Unmarshal (List (GoString × GoString)))
    (m : List (GoString × Value)) (ms : List (GoString × GoString)) :
    (∀ k s, (k, s) ∈ GetAsMap unmarshal (Value.mapAny m) ↔ (k, Value.string s) ∈ m) ∧
    GetAsMap unmarshal (Value.mapString ms) = ms ∧
    (∀ v : Value, (∀ s, v ≠ Value.string s) → (∀ m', v ≠ Value.mapAny m') →
      (∀ m', v ≠ Value.mapString m') → GetAsMap unmarshal v = []) := by
  refine ⟨?_, rfl, ?_⟩
  · intro k s
    simp only [GetAsMap, List.mem_filterMap]
    constructor
    · rintro ⟨⟨k', v⟩, hmem, hv⟩
      cases v <;> simp at hv
      obtain ⟨rfl, rfl⟩ := hv
      exact hmem
    · intro hmem
      exact ⟨(k, Value.string s), hmem, rfl⟩
  · intro v h1 h2 h3
    cases v with
    | string s => exact absurd rfl (h1 s)
    | mapAny m' => exact absurd rfl (h2 m')
    | mapString m' => exact absurd rfl (h3 m')
    | _ => rfl

/-- C12, worked input: of the entries `runtimeenv = "dev"`, `port = 2003` and
`region = "uswest1-devc"` the two strings are kept; the number 12 gives the
empty map. -/
theorem GetAsMap_generic_map_witness :
    GetAsMap (fun _ c => (c, none))
        (Value.mapAny [("runtimeenv".toList, Value.string "dev".toList),
          ("port".toList, Value.float64 (Float64.ofInt 2003)),
          ("region".toList, Value.string "uswest1-devc".toList)]) =
      [("runtimeenv".toList, "dev".toList), ("region".toList, "uswest1-devc".toList)] ∧
    GetAsMap (fun _ c => (c, none)) (Value.int 12) = [] :=
  ⟨by decide,
   (GetAsMap_generic_map (fun _ c => (c, none)) [] []).2.2 (Value.int 12)
    (fun _ h => by cases h) (fun _ h => by cases h) (fun _ h => by cases h)⟩

/-- C13: `GetAsSlice` returns a `[]string` as it is, turns a generic list whose
elements are all strings into the slice of those strings, same length and
order, and returns the empty slice for a value that is neither a string nor a
list. -/
theorem GetAsSlice_preserves_list (unmarshal : Unmarshal (List GoString))
    (xs : List GoString) :
    GetAsSlice unmarshal (Value.sliceString xs) = Except.ok xs ∧
    GetAsSlice unmarshal (Value.sliceAny (xs.map Value.string)) = Except.ok xs ∧
    (∀ v : Value, (∀ s, v ≠ Value.string s) → (∀ l, v ≠ Value.sliceString l) →
      (∀ l, v ≠ Value.sliceAny l) → GetAsSlice unmarshal v = Except.ok []) := by
  refine ⟨rfl, mapM_assertString_strings xs, ?_⟩
  intro v h1 h2 h3
  cases v with
  | string s => exact absurd rfl (h1 s)
  | sliceString l => exact absurd rfl (h2 l)
  | sliceAny l => exact absurd rfl (h3 l)
  | _ => rfl

/-- C13, worked input: the generic list `["a", "b", "c"]` decoded from JSON gives
the three strings in order, and the boolean `true` gives the empty slice. -/
theorem GetAsSlice_preserves_list_witness :
    GetAsSlice (fun _ c => (c, none))
        (Value.sliceAny [Value.string "a".toList, Value.string "b".toList,
          Value.string "c".toList]) =
      Except.ok ["a".toList, "b".toList, "c".toList] ∧
    GetAsSlice (fun _ c => (c, none)) (Value.bool true) = Except.ok [] :=
  ⟨(GetAsSlice_preserves_list (fun _ c => (c, none))
      ["a".toList, "b".toList, "c".toList]).2.1,
   (GetAsSlice_preserves_list (fun _ c => (c, none)) []).2.2 (Value.bool true)
    (fun _ h => by cases h) (fun _ h => by cases h) (fun _ h => by cases h)⟩

/-- C14: `buildMetric(k, v)` is named `mesos.` followed by `k`, carries the value
`v` and an empty dimension map, and its kind is `CumulativeCounter` when `k`
matches the cumulative-counter name pattern and `Gauge` otherwise. -/
theorem buildMetric_kind (isCumulativeCounter : GoString → Bool) (k : GoString) (v : Float64) :
    (buildMetric isCumulativeCounter k v).name = "mesos.".toList ++ k ∧
    (buildMetric isCumulativeCounter k v).value = v ∧
    (buildMetric isCumulativeCounter k v).dimensions = [] ∧
    (isCumulativeCounter k = true →
      (buildMetric isCumulativeCounter k v).metricType = MetricType.CumulativeCounter) ∧
    (isCumulativeCounter k = false →
      (buildMetric isCumulativeCounter k v).metricType = MetricType.Gauge) := by
  refine ⟨rfl, rfl, rfl, ?_, ?_⟩
  · intro h
    simp [buildMetric, h]
  · intro h
    simp [buildMetric, h]

/-- C14, worked input: with a pattern that holds of `master.slave_reregistrations`
and not of `test`, the first name gives a cumulative counter and the second a
gauge, both for the value 0.1. -/
theorem buildMetric_kind_witness :
    (buildMetric (fun k => k == "master.slave_reregistrations".toList)
        "master.slave_reregistrations".toList
        { sign := false, exponent := 1019, fraction := 2702159776422298 }).metricType =
      MetricType.CumulativeCounter ∧
    (buildMetric (fun k => k == "master.slave_reregistrations".toList) "test".toList
        { sign := false, exponent := 1019, fraction := 2702159776422298 }).metricType =
      MetricType.Gauge :=
  ⟨(buildMetric_kind (fun k => k == "master.slave_reregistrations".toList)
      "master.slave_reregistrations".toList
      { sign := false, exponent := 1019, fraction := 2702159776422298 }).2.2.2.1 (by decide),
   (buildMetric_kind (fun k => k == "master.slave_reregistrations".toList) "test".toList
      { sign := false, exponent := 1019, fraction := 2702159776422298 }).2.2.2.2 (by decide)⟩

/-- C15: for a response with a 2xx status whose body decodes to the flat object
`raw` with `master/elected` equal to 1, `getMetrics` returns the map that holds,
for each entry of `raw` (the gating entry included), the key with every `/`
replaced by `.` and the same number, and nothing else. -/
theorem getMetrics_converts_keys (decode : GoString → Option (List (GoString × Float64)))
    (status : Nat) (body : GoString) (raw : List (GoString × Float64))
    (hstatus : 200 ≤ status ∧ status < 300) (hdecode : decode body = some raw)
    (helected : raw.lookup electedKey = some Float64.one) :
    getMetrics decode (HttpOutcome.response status body) =
      some (raw.map fun kv => (dottedKey kv.1, kv.2)) ∧
    (∀ k' v, (k', v) ∈ raw.map (fun kv => (dottedKey kv.1, kv.2)) ↔
      ∃ k, (k, v) ∈ raw ∧ k' = dottedKey k) := by
  refine ⟨?_, ?_⟩
  · unfold getMetrics
    simp only
    rw [if_pos hstatus, hdecode]
    simp only
    rw [if_pos helected]
  · intro k' v
    simp only [List.mem_map, Prod.mk.injEq]
    constructor
    · rintro ⟨⟨k, w⟩, hmem, hk, hw⟩
      subst hw
      exact ⟨k, hmem, hk.symm⟩
    · rintro ⟨k, hmem, rfl⟩
      exact ⟨(k, v), hmem, rfl, rfl⟩

/-- C15, worked input: the payload of `TestMesosStatsGetMetrics`, with 6784068
under `frameworks/chronos/messages_processed` and 1 under `master/elected`,
comes back under `frameworks.chronos.messages_processed` and `master.elected`. -/
theorem getMetrics_converts_keys_witness :
    getMetrics
        (fun _ => some [("frameworks/chronos/messages_processed".toList, Float64.ofInt 6784068),
          ("master/elected".toList, Float64.one)])
        (HttpOutcome.response 200 "payload".toList) =
      some [("frameworks.chronos.messages_processed".toList, Float64.ofInt 6784068),
        ("master.elected".toList, Float64.one)] :=
  (getMetrics_converts_keys
    (fun _ => some [("frameworks/chronos/messages_processed".toList, Float64.ofInt 6784068),
      ("master/elected".toList, Float64.one)])
    200 "payload".toList
    [("frameworks/chronos/messages_processed".toList, Float64.ofInt 6784068),
      ("master/elected".toList, Float64.one)]
    (by decide) rfl (by decide)).1

/-- C16: `getMetrics` returns the empty, present map exactly when a 2xx response
decodes and its `master/elected` value is not 1, and the nil "no data" result
exactly when the request fails, the status is not 2xx or the body does not
decode; the two results differ. -/
theorem getMetrics_empty_versus_no_data
    (decode : GoString → Option (List (GoString × Float64))) (outcome : HttpOutcome) :
    (getMetrics decode outcome = some [] ↔
      ∃ status body raw, outcome = HttpOutcome.response status body ∧
        (200 ≤ status ∧ status < 300) ∧ decode body = some raw ∧
        raw.lookup electedKey ≠ some Float64.one) ∧
    (getMetrics decode outcome = none ↔
      (∃ err, outcome = HttpOutcome.failed err) ∨
      ∃ status body, outcome = HttpOutcome.response status body ∧
        (¬ (200 ≤ status ∧ status < 300) ∨ decode body = none)) ∧
    (some [] : Option (List (GoString × Float64))) ≠ none := by
  have hval : ∀ status body, (200 ≤ status ∧ status < 300) → ∀ raw, decode body = some raw →
      getMetrics decode (HttpOutcome.response status body) =
        if raw.lookup electedKey = some Float64.one then
          some (raw.map fun kv => (dottedKey kv.1, kv.2))
        else some [] := by
    intro status body hs raw hd
    unfold getMetrics
    simp only
    rw [if_pos hs, hd]
  have hnodec : ∀ status body, (200 ≤ status ∧ status < 300) → decode body = none →
      getMetrics decode (HttpOutcome.response status body) = none := by
    intro status body hs hd
    unfold getMetrics
    simp only
    rw [if_pos hs, hd]
  have hbad : ∀ status body, ¬ (200 ≤ status ∧ status < 300) →
      getMetrics decode (HttpOutcome.response status body) = none := by
    intro status body hs
    unfold getMetrics
    simp only
    rw [if_neg hs]
  refine ⟨?_, ?_, fun h => Option.noConfusion h⟩
  · cases outcome with
    | failed err =>
      constructor
      · intro h
        exact Option.noConfusion h
      · rintro ⟨status, body, raw, h, -⟩
        exact HttpOutcome.noConfusion h
    | response status body =>
      constructor
      · intro h
        by_cases hs : 200 ≤ status ∧ status < 300
        · cases hd : decode body with
          | none =>
            rw [hnodec status body hs hd] at h
            exact Option.noConfusion h
          | some raw =>
            refine ⟨status, body, raw, rfl, hs, hd, ?_⟩
            intro he
            rw [hval status body hs raw hd, if_pos he] at h
            have hnil : raw.map (fun kv => (dottedKey kv.1, kv.2)) = [] := Option.some.inj h
            have hraw : raw = [] := List.map_eq_nil_iff.1 hnil
            rw [hraw] at he
            exact Option.noConfusion he
        · rw [hbad status body hs] at h
          exact Option.noConfusion h
      · rintro ⟨status', body', raw, h, hs, hd, he⟩
        injection h with h1 h2
        subst h1
        subst h2
        rw [hval status body hs raw hd, if_neg he]
  · cases outcome with
    | failed err =>
      constructor
      · intro _
        exact Or.inl ⟨err, rfl⟩
      · intro _
        rfl
    | response status body =>
      constructor
      · intro h
        refine Or.inr ⟨status, body, rfl, ?_⟩
        by_cases hs : 200 ≤ status ∧ status < 300
        · cases hd : decode body with
          | none => exact Or.inr rfl
          | some raw =>
            rw [hval status body hs raw hd] at h
            split at h <;> exact Option.noConfusion h
        · exact Or.inl hs
      · rintro (⟨err, h⟩ | ⟨status', body', h, hcase⟩)
        · exact HttpOutcome.noConfusion h
        · injection h with h1 h2
          subst h1
          subst h2
          rcases hcase with hs | hd
          · exact hbad status body hs
          · by_cases hs : 200 ≤ status ∧ status < 300
            · exact hnodec status body hs hd
            · exact hbad status body hs

/-- C17: when the host's external address and the leader's address are both
resolved, `Collect` does not call `sendMetrics` and emits nothing if the two
differ, and invokes `sendMetrics` if they are equal. -/
theorem Collect_gated_by_leader (ip leaderIP : GoString) (sendMetrics : List Metric) :
    (ip ≠ leaderIP →
      Collect (ip, none) (leaderIP, none) sendMetrics =
        { sendMetricsCalled := false, emitted := [] }) ∧
    (ip = leaderIP →
      (Collect (ip, none) (leaderIP, none) sendMetrics).sendMetricsCalled = true) := by
  constructor
  · intro h
    simp [Collect, h]
  · intro h
    simp [Collect, h]

/-- C17, worked input: the two external addresses of `TestMesosStatsCollect`
against a leader at `1.2.3.4`.  From `5.6.7.8` nothing is sent; from `1.2.3.4`
`sendMetrics` is invoked. -/
theorem Collect_gated_by_leader_witness :
    "5.6.7.8".toList ≠ "1.2.3.4".toList ∧
    Collect ("5.6.7.8".toList, none) ("1.2.3.4".toList, none)
        [buildMetric (fun _ => false) "test".toList Float64.one] =
      { sendMetricsCalled := false, emitted := [] } ∧
    (Collect ("1.2.3.4".toList, none) ("1.2.3.4".toList, none)
        [buildMetric (fun _ => false) "test".toList Float64.one]).sendMetricsCalled = true :=
  ⟨by decide,
   (Collect_gated_by_leader "5.6.7.8".toList "1.2.3.4".toList _).1 (by decide),
   (Collect_gated_by_leader "1.2.3.4".toList "1.2.3.4".toList _).2 rfl⟩

/-! ### Texts laid out as chunks and tokens -/

theorem percentFree_iff {s : GoString} : percentFree s = true ↔ ∀ c ∈ s, c ≠ '%' := by
  simp [percentFree, List.all_eq_true]

theorem isName_percentFree {n : GoString} (h : isName n = true) : ∀ c ∈ n, c ≠ '%' := by
  obtain ⟨u, nr, rfl, hu, hnr, -⟩ := isName_chars h
  intro c hc hcp
  subst hcp
  have hall : isNameChar '%' = true := by
    rcases List.mem_cons.1 hc with h1 | h1
    · rw [h1]
      exact isNameChar_of_isUpper hu
    · exact hnr _ h1
  rw [isNameChar_percent] at hall
  exact Bool.false_ne_true hall

theorem name_append_inj {a b x y : GoString} (ha : ∀ c ∈ a, c ≠ '%') (hb : ∀ c ∈ b, c ≠ '%')
    (h : a ++ '%' :: x = b ++ '%' :: y) : a = b := by
  rcases List.append_eq_append_iff.1 h with ⟨a', hb', hx⟩ | ⟨c', ha', hy⟩
  · cases a' with
    | nil => simpa using hb'.symm
    | cons z a'' =>
      simp only [List.cons_append, List.cons.injEq] at hx
      exact absurd hx.1.symm (hb z (by rw [hb']; simp))
  · cases c' with
    | nil => simpa using ha'
    | cons z c'' =>
      simp only [List.cons_append, List.cons.injEq] at hy
      exact absurd hy.1.symm (ha z (by rw [ha']; simp))

theorem tokenOf_prefix_inj {N n X : GoString} (hN : isName N = true) (hn : isName n = true)
    (h : tokenOf N <+: tokenOf n ++ X) : N = n := by
  obtain ⟨t, ht⟩ := h
  simp only [tokenOf, List.cons_append, List.cons.injEq, true_and, List.append_assoc] at ht
  exact name_append_inj (isName_percentFree hN) (isName_percentFree hn) ht

theorem tokenNames_mem : ∀ (segs : List Segment) (n : GoString),
    Segment.token n ∈ segs → n ∈ tokenNames segs
  | [], _, h => by simp at h
  | Segment.text s :: rest, n, h => by
    rcases List.mem_cons.1 h with h1 | h1
    · exact Segment.noConfusion h1
    · exact tokenNames_mem rest n h1
  | Segment.token m :: rest, n, h => by
    rcases List.mem_cons.1 h with h1 | h1
    · injection h1 with h1
      rw [h1]
      exact List.mem_cons_self _ _
    · exact List.mem_cons_of_mem _ (tokenNames_mem rest n h1)

theorem substituteIn_nil (env : Env) (segs : List Segment) :
    segs.map (Segment.substituteIn env []) = segs := by
  induction segs with
  | nil => rfl
  | cons seg rest ih =>
    rw [List.map_cons, ih]
    cases seg <;> simp [Segment.substituteIn]

theorem substituteIn_cons_unset (env : Env) (N : GoString) (L : List GoString)
    (hN : env N = none) (seg : Segment) :
    Segment.substituteIn env (N :: L) seg = Segment.substituteIn env L seg := by
  cases seg with
  | text s => rfl
  | token n =>
    by_cases hnN : n = N
    · subst hnN
      by_cases hL : n ∈ L <;> simp [Segment.substituteIn, Segment.substitute, hN, hL]
    · by_cases hL : n ∈ L <;> simp [Segment.substituteIn, hnN, hL]

theorem substituteGo_zero_copy (env : Env) (b : GoString) :
    substituteGo env 0 false b = substituteGo env 0 true b := by
  cases b with
  | nil => rfl
  | cons c cs => rw [substituteGo, substituteGo]

theorem substituteGo_skip (env : Env) (copy : Bool) : ∀ (a b : GoString),
    substituteGo env a.length copy (a ++ b) =
      (if copy = true then a else []) ++ substituteGo env 0 true b
  | [], b => by
    cases copy
    · simpa using substituteGo_zero_copy env b
    · simp
  | x :: a, b => by
    have ih := substituteGo_skip env copy a b
    simp only [List.length_cons, List.cons_append, substituteGo]
    cases copy
    · simpa using ih
    · simpa using ih

theorem substituteGo_token (env : Env) (n R : GoString) (hn : isName n = true) :
    substituteGo env 0 true (tokenOf n ++ R) =
      (Segment.substitute env (Segment.token n)).render ++ substituteGo env 0 true R := by
  have hm := matchTokenAt_tokenOf hn R
  have hshape : tokenOf n ++ R = '%' :: (('%' :: (n ++ ['%', '%'])) ++ R) := by
    simp [tokenOf]
  have hlen : (tokenOf n).length - 1 = ('%' :: (n ++ ['%', '%'])).length := by
    simp [tokenOf]
  rw [hshape] at hm ⊢
  rw [substituteGo, hm]
  simp only [sliceName_tokenOf]
  cases hv : env n with
  | none =>
    simp only [Segment.substitute, hv, Segment.render]
    rw [hlen, substituteGo_skip]
    simp [tokenOf]
  | some v =>
    simp only [Segment.substitute, hv, Segment.render]
    rw [hlen, substituteGo_skip]
    simp

theorem exists_scanned : ∀ (k : Nat) (c : GoString), c.length ≤ k →
    ∃ segs, renderSegments segs = c ∧ Scanned segs
  | _, [], _ => ⟨[], rfl, trivial⟩
  | 0, _ :: _, h => absurd h (by simp)
  | k + 1, ch :: cs, h => by
    have hlen : cs.length ≤ k := by
      simp only [List.length_cons] at h
      omega
    cases hm : matchTokenAt (ch :: cs) with
    | none =>
      obtain ⟨segs, hr, hs⟩ := exists_scanned k cs hlen
      refine ⟨Segment.text [ch] :: segs, by simp [renderSegments, Segment.render, hr], ?_, hs⟩
      intro p1 p2 hp hne
      have hp2 : p2 = [ch] := by
        cases p1 with
        | nil => simpa using hp.symm
        | cons x p1' =>
          simp only [List.cons_append, List.cons.injEq] at hp
          have := hp.2
          simp only [List.nil_eq, List.append_eq_nil] at this
          exact absurd this.2 hne
      rw [hp2, hr]
      exact hm
    | some mr =>
      obtain ⟨m, r⟩ := mr
      obtain ⟨hsplit, hmt⟩ := matchTokenAt_sound hm
      obtain ⟨n, hn, rfl⟩ := matchesToken_iff.1 hmt
      have hrlen : r.length ≤ k := by
        have h1 : (ch :: cs).length = (tokenOf n).length + r.length := by
          rw [hsplit, List.length_append]
        simp only [List.length_cons, tokenOf] at h1 h
        omega
      obtain ⟨segs, hr, hs⟩ := exists_scanned k r hrlen
      exact ⟨Segment.token n :: segs, by simp [renderSegments, Segment.render, hr, hsplit],
        hn, hs⟩

theorem FindAll_render : ∀ (segs : List Segment), Scanned segs →
    FindAll (renderSegments segs) = (tokenNames segs).map tokenOf
  | [], _ => rfl
  | Segment.text s :: rest, h => by
    have ih := FindAll_render rest h.2
    unfold FindAll at ih ⊢
    simp only [renderSegments, Segment.render, tokenNames]
    rw [findAllGo_append_of_none _ _ h.1, ih]
  | Segment.token n :: rest, h => by
    have ih := FindAll_render rest h.2
    unfold FindAll at ih ⊢
    simp only [renderSegments, Segment.render, tokenNames, List.map_cons]
    rw [findAllGo_match (matchTokenAt_tokenOf h.1 (renderSegments rest)), ih]

theorem tokenNames_isName : ∀ (segs : List Segment), Scanned segs →
    ∀ n ∈ tokenNames segs, isName n = true
  | [], _, n, h => by simp [tokenNames] at h
  | Segment.text s :: rest, hs, n, h => tokenNames_isName rest hs.2 n h
  | Segment.token m :: rest, hs, n, h => by
    rcases List.mem_cons.1 h with h1 | h1
    · rw [h1]
      exact hs.1
    · exact tokenNames_isName rest hs.2 n h1

theorem substituteGo_append_of_none (env : Env) : ∀ (s R : GoString),
    (∀ p1 p2, s = p1 ++ p2 → p2 ≠ [] → matchTokenAt (p2 ++ R) = none) →
    substituteGo env 0 true (s ++ R) = s ++ substituteGo env 0 true R
  | [], _, _ => rfl
  | c :: s, R, h => by
    have h0 := h [] (c :: s) rfl (by simp)
    simp only [List.cons_append] at h0 ⊢
    rw [substituteGo, h0]
    simp only [List.cons.injEq, true_and]
    exact substituteGo_append_of_none env s R
      (fun p1 p2 hp hne => h (c :: p1) p2 (by simp [hp]) hne)

theorem simultaneousSubstitution_render (env : Env) :
    ∀ (segs : List Segment), Scanned segs →
    simultaneousSubstitution env (renderSegments segs) =
      renderSegments (segs.map (Segment.substitute env))
  | [], _ => rfl
  | Segment.text s :: rest, h => by
    have ih := simultaneousSubstitution_render env rest h.2
    unfold simultaneousSubstitution at ih ⊢
    simp only [renderSegments, Segment.render, List.map_cons, Segment.substitute]
    rw [substituteGo_append_of_none env s _ h.1, ih]
  | Segment.token n :: rest, h => by
    have ih := simultaneousSubstitution_render env rest h.2
    unfold simultaneousSubstitution at ih ⊢
    show substituteGo env 0 true (tokenOf n ++ renderSegments rest) =
      (Segment.substitute env (Segment.token n)).render ++
        renderSegments (rest.map (Segment.substitute env))
    rw [substituteGo_token env n _ h.1, ih]

/-! ### Beginnings of tokens -/

theorem opensToken_percent (s0 : GoString) : opensToken (s0 ++ ['%']) = true := by
  simp [opensToken, List.dropWhile, List.takeWhile, isNameChar_percent]

theorem opensToken_run (s0 : GoString) (u : Char) (U : GoString) (hu : isUpper u = true)
    (hU : ∀ x ∈ U, isNameChar x = true) :
    opensToken (s0 ++ '%' :: '%' :: u :: U) = true := by
  have hrun : ∀ x ∈ (u :: U).reverse, isNameChar x = true := by
    intro x hx
    rcases List.mem_cons.1 (List.mem_reverse.1 hx) with rfl | hx
    · exact isNameChar_of_isUpper hu
    · exact hU x hx
  have hrev : (s0 ++ '%' :: '%' :: u :: U).reverse =
      (u :: U).reverse ++ '%' :: '%' :: s0.reverse := by
    simp
  have htw : ((u :: U).reverse ++ '%' :: '%' :: s0.reverse).takeWhile isNameChar =
      (u :: U).reverse := by
    rw [List.takeWhile_append_of_pos hrun]
    simp [List.takeWhile, isNameChar_percent]
  have hdw : ((u :: U).reverse ++ '%' :: '%' :: s0.reverse).dropWhile isNameChar =
      '%' :: '%' :: s0.reverse := by
    rw [List.dropWhile_append_of_pos hrun]
    simp [List.dropWhile, isNameChar_percent]
  unfold opensToken
  rw [hrev, htw, hdw, List.reverse_reverse]
  exact hu

theorem opensToken_cases {s : GoString} (h : opensToken s = true) :
    (∃ s0, s = s0 ++ ['%']) ∨
    (∃ s0 u U, s = s0 ++ '%' :: '%' :: u :: U ∧ isUpper u = true ∧
      ∀ x ∈ U, isNameChar x = true) := by
  have hs : s = (s.reverse.dropWhile isNameChar).reverse ++
      (s.reverse.takeWhile isNameChar).reverse := by
    rw [← List.reverse_append, List.takeWhile_append_dropWhile, List.reverse_reverse]
  have hall : ∀ x ∈ (s.reverse.takeWhile isNameChar).reverse, isNameChar x = true :=
    fun x hx => List.mem_takeWhile_imp (List.mem_reverse.1 hx)
  unfold opensToken at h
  split at h
  · rename_i d hd hr
    left
    refine ⟨d.reverse, ?_⟩
    rw [hs, hd, hr]
    simp
  · rename_i d u U hd hr
    right
    refine ⟨d.reverse, u, U, ?_, h, ?_⟩
    · rw [hs, hd, hr]
      simp
    · intro x hx
      exact hall x (by rw [hr]; exact List.mem_cons_of_mem _ hx)
  · exact absurd h (by simp)

theorem opensToken_append_left (s0 : GoString) {s : GoString} (h : opensToken s = true) :
    opensToken (s0 ++ s) = true := by
  rcases opensToken_cases h with ⟨s1, rfl⟩ | ⟨s1, u, U, rfl, hu, hU⟩
  · rw [← List.append_assoc]
    exact opensToken_percent _
  · rw [← List.append_assoc]
    exact opensToken_run _ u U hu hU

theorem tokenOf_chars {N : GoString} (hN : isName N = true) :
    ∀ x ∈ tokenOf N, x = '%' ∨ isNameChar x = true := by
  obtain ⟨u, nr, rfl, hu, hnr, -⟩ := isName_chars hN
  intro x hx
  simp only [tokenOf, List.mem_cons, List.mem_append, List.mem_singleton, List.not_mem_nil,
    or_false] at hx
  rcases hx with h | h | (h | h) | h | h
  · exact Or.inl h
  · exact Or.inl h
  · exact Or.inr (by rw [h]; exact isNameChar_of_isUpper hu)
  · exact Or.inr (hnr x h)
  · exact Or.inl h
  · exact Or.inl h

/-- A text that ends with a non-empty proper prefix of a token ends with the
beginning of a token. -/
theorem opensToken_of_proper_prefix {N q τ : GoString} (hN : isName N = true)
    (hq : tokenOf N = q ++ τ) (hqne : q ≠ []) (hτ : τ ≠ []) (s0 : GoString) :
    opensToken (s0 ++ q) = true := by
  obtain ⟨u, nr, rfl, hu, hnr, -⟩ := isName_chars hN
  match q, hqne, hq with
  | [a], _, hq =>
    simp only [tokenOf, List.cons_append, List.nil_append, List.cons.injEq] at hq
    rw [← hq.1]
    exact opensToken_percent s0
  | [a, b], _, hq =>
    simp only [tokenOf, List.cons_append, List.nil_append, List.cons.injEq] at hq
    rw [← hq.1, ← hq.2.1]
    have : s0 ++ ['%', '%'] = (s0 ++ ['%']) ++ ['%'] := by simp
    rw [this]
    exact opensToken_percent _
  | a :: b :: c :: q', _, hq =>
    simp only [tokenOf, List.cons_append, List.cons.injEq] at hq
    obtain ⟨rfl, rfl, rfl, hq⟩ := hq
    rcases List.append_eq_append_iff.1 hq with ⟨a', hq', ha'⟩ | ⟨c', hnr', -⟩
    · match a', ha' with
      | [], _ =>
        rw [hq', List.append_nil]
        exact opensToken_run s0 _ nr hu hnr
      | [x], ha' =>
        simp only [List.cons_append, List.nil_append, List.cons.injEq] at ha'
        rw [hq', ← ha'.1]
        have : s0 ++ '%' :: '%' :: u :: (nr ++ ['%']) =
            (s0 ++ '%' :: '%' :: u :: nr) ++ ['%'] := by simp
        rw [this]
        exact opensToken_percent _
      | x :: y :: a'', ha' =>
        simp only [List.cons_append, List.cons.injEq] at ha'
        have : τ = [] := by
          have h3 := ha'.2.2
          cases a'' with
          | nil => simpa using h3.symm
          | cons z a3 => simp at h3
        exact absurd this hτ
    · exact opensToken_run s0 _ q' hu (fun x hx => hnr x (by rw [hnr']; simp [hx]))

theorem renderSegments_append : ∀ (A B : List Segment),
    renderSegments (A ++ B) = renderSegments A ++ renderSegments B
  | [], _ => rfl
  | seg :: A, B => by
    show seg.render ++ renderSegments (A ++ B) =
      (seg.render ++ renderSegments A) ++ renderSegments B
    rw [renderSegments_append A B, List.append_assoc]

theorem Scanned_suffix : ∀ (A B : List Segment), Scanned (A ++ B) → Scanned B
  | [], _, h => h
  | Segment.text _ :: A, B, h => Scanned_suffix A B h.2
  | Segment.token _ :: A, B, h => Scanned_suffix A B h.2

theorem prefix_append_cases {L q X : GoString} (h : L <+: q ++ X) :
    L <+: q ∨ ∃ τ, τ ≠ [] ∧ L = q ++ τ ∧ τ <+: X := by
  obtain ⟨t, ht⟩ := h
  rcases List.append_eq_append_iff.1 ht with ⟨a', hq, -⟩ | ⟨c', hL, hX⟩
  · exact Or.inl ⟨a', hq.symm⟩
  · by_cases hc : c' = []
    · subst hc
      exact Or.inl ⟨[], by simp [hL]⟩
    · exact Or.inr ⟨c', hc, hL, ⟨t, hX.symm⟩⟩

theorem substituteIn_token_cases (env : Env) (P : List GoString) (n : GoString) :
    (∃ w, env n = some w ∧ Segment.substituteIn env P (Segment.token n) = Segment.text w) ∨
    Segment.substituteIn env P (Segment.token n) = Segment.token n := by
  by_cases hP : n ∈ P
  · cases hw : env n with
    | none => exact Or.inr (by simp [Segment.substituteIn, Segment.substitute, hP, hw])
    | some w => exact Or.inl ⟨w, rfl, by simp [Segment.substituteIn, Segment.substitute, hP, hw]⟩
  · exact Or.inr (by simp [Segment.substituteIn, hP])

/-- An occurrence of `L` that begins in the text `q` before a partly substituted
layout either is there before the substitution too, or runs into the value put
in place of some token. -/
theorem prefix_render_substituteIn (env : Env) (P : List GoString) (L : GoString) :
    ∀ (B : List Segment) (q : GoString),
    L <+: q ++ renderSegments (B.map (Segment.substituteIn env P)) →
    L <+: q ++ renderSegments B ∨
    ∃ B1 n B2 w τ, B = B1 ++ Segment.token n :: B2 ∧ env n = some w ∧ τ ≠ [] ∧
      L = (q ++ renderSegments B1) ++ τ ∧
      τ <+: w ++ renderSegments (B2.map (Segment.substituteIn env P))
  | [], q, h => Or.inl h
  | seg :: B, q, h => by
    have hkeep : Segment.substituteIn env P seg = seg →
        (L <+: q ++ renderSegments (seg :: B) ∨
          ∃ B1 n B2 w τ, seg :: B = B1 ++ Segment.token n :: B2 ∧ env n = some w ∧ τ ≠ [] ∧
            L = (q ++ renderSegments B1) ++ τ ∧
            τ <+: w ++ renderSegments (B2.map (Segment.substituteIn env P))) := by
      intro hseg
      rw [List.map_cons, hseg, renderSegments, ← List.append_assoc] at h
      rcases prefix_render_substituteIn env P L B (q ++ seg.render) h with h1 | h1
      · left
        rw [renderSegments, ← List.append_assoc]
        exact h1
      · obtain ⟨B1, n, B2, w, τ, hB, hw, hτ, hL, hpre⟩ := h1
        right
        refine ⟨seg :: B1, n, B2, w, τ, by rw [hB]; rfl, hw, hτ, ?_, hpre⟩
        rw [hL, renderSegments, List.append_assoc q]
    cases seg with
    | text s => exact hkeep rfl
    | token n =>
      rcases substituteIn_token_cases env P n with ⟨w, hw, hsub⟩ | hsub
      · rw [List.map_cons, hsub, renderSegments] at h
        rcases prefix_append_cases h with h1 | ⟨τ, hτ, hL, hpre⟩
        · exact Or.inl (h1.trans (List.prefix_append _ _))
        · exact Or.inr ⟨[], n, B, w, τ, rfl, hw, hτ, by simpa [renderSegments] using hL, hpre⟩
      · exact hkeep hsub

theorem tokenOf_infix_of_mem : ∀ (segs : List Segment) (n : GoString),
    Segment.token n ∈ segs → tokenOf n <:+: renderSegments segs
  | [], _, h => by simp at h
  | seg :: rest, n, h => by
    rcases List.mem_cons.1 h with h1 | h1
    · rw [← h1]
      exact ⟨[], renderSegments rest, by simp [renderSegments, Segment.render]⟩
    · exact (tokenOf_infix_of_mem rest n h1).trans
        (List.suffix_append seg.render (renderSegments rest)).isInfix

theorem Scanned_isName {segs : List Segment} (hs : Scanned segs) {n : GoString}
    (h : Segment.token n ∈ segs) : isName n = true :=
  tokenNames_isName segs hs n (tokenNames_mem segs n h)

/-- A token cannot begin in the content before a replaced token and run into
the value put in its place, when that value begins outside every token. -/
theorem junction_absurd (env : Env) (c : GoString)
    (hleft : ∀ a t b v, c = a ++ t ++ b → matchesToken t = true → env (sliceName t) = some v →
      opensToken a = true → startsOutsideTokens v = true)
    (pre R' : GoString) {N n q τ w R : GoString} (hN : isName N = true) (hn : isName n = true)
    (hc : c = (pre ++ q) ++ tokenOf n ++ R') (hw : env n = some w) (hq : q ≠ [])
    (hτ : τ ≠ []) (hL : tokenOf N = q ++ τ) (hτw : τ <+: w ++ R) : False := by
  have hopen : opensToken (pre ++ q) = true := opensToken_of_proper_prefix hN hL hq hτ pre
  have hout := hleft (pre ++ q) (tokenOf n) R' w hc (matchesToken_tokenOf hn)
    (by rw [sliceName_tokenOf]; exact hw) hopen
  cases w with
  | nil => simp [startsOutsideTokens] at hout
  | cons c0 w' =>
    simp only [startsOutsideTokens, Bool.and_eq_true, bne_iff_ne, ne_eq, Bool.not_eq_true'] at hout
    cases τ with
    | nil => exact hτ rfl
    | cons t0 τ' =>
      obtain ⟨x, hx⟩ := hτw
      simp only [List.cons_append, List.cons.injEq] at hx
      have hmem : c0 ∈ tokenOf N := by
        rw [hL, ← hx.1]
        simp
      rcases tokenOf_chars hN c0 hmem with h1 | h1
      · exact hout.1 h1
      · rw [hout.2] at h1
        exact Bool.false_ne_true h1

/-- One `ReplaceAllLiteral` of the loop on a partly substituted layout replaces
exactly the tokens of that name. -/
theorem ReplaceAllLiteral_layout (env : Env) (c : GoString)
    (hover : ∀ a t b, c = a ++ t ++ b → matchesToken t = true → env (sliceName t) ≠ none →
      ∀ a' t' b', c = a' ++ t' ++ b' → matchesToken t' = true → a'.length < a.length →
        a'.length + t'.length ≤ a.length)
    (hleft : ∀ a t b v, c = a ++ t ++ b → matchesToken t = true → env (sliceName t) = some v →
      opensToken a = true → startsOutsideTokens v = true)
    (hvals : ∀ t v, t <:+: c → matchesToken t = true → env (sliceName t) = some v →
      opensToken v = false ∧
        ∀ u, u <:+: c → matchesToken u = true → env (sliceName u) ≠ none → ¬ u <:+: v)
    (P : List GoString) (N v : GoString) (hN : isName N = true) (hNc : tokenOf N <:+: c)
    (hv : env N = some v) :
    ∀ (segs : List Segment) (pre : GoString), Scanned segs → c = pre ++ renderSegments segs →
    ReplaceAllLiteral (tokenOf N) v (renderSegments (segs.map (Segment.substituteIn env P))) =
      renderSegments ((segs.map (Segment.substituteIn env P)).map (replaceToken N v))
  | [], _, _, _ => rfl
  | Segment.text s :: rest, pre, hs, hc => by
    have ih := ReplaceAllLiteral_layout env c hover hleft hvals P N v hN hNc hv rest (pre ++ s)
      hs.2 (by rw [hc]; simp [renderSegments, Segment.render])
    unfold ReplaceAllLiteral at ih ⊢
    simp only [List.map_cons, Segment.substituteIn, replaceToken, renderSegments, Segment.render]
    rw [replaceAllGo_append_of_none, ih]
    intro p1 p2 hp hne hpre
    rcases prefix_render_substituteIn env P (tokenOf N) rest p2 hpre with h1 | h1
    · obtain ⟨b, hb⟩ := h1
      have hnone := hs.1 p1 p2 hp hne
      rw [← hb, matchTokenAt_tokenOf hN] at hnone
      exact absurd hnone (by simp)
    · obtain ⟨B1, n, B2, w, τ, hB, hw, hτ, hL, hτw⟩ := h1
      have hn : isName n = true := Scanned_isName hs.2 (by rw [hB]; simp)
      refine junction_absurd env c hleft (pre ++ p1) (renderSegments B2) hN hn ?_ hw
        (by simp [hne]) hτ hL hτw
      rw [hc, hB, hp]
      simp [renderSegments, Segment.render, renderSegments_append]
  | Segment.token n :: rest, pre, hs, hc => by
    have hc' : c = (pre ++ tokenOf n) ++ renderSegments rest := by
      rw [hc]
      simp [renderSegments, Segment.render]
    have ih := ReplaceAllLiteral_layout env c hover hleft hvals P N v hN hNc hv rest
      (pre ++ tokenOf n) hs.2 hc'
    have hn : isName n = true := hs.1
    have hmN : matchesToken (tokenOf N) = true := matchesToken_tokenOf hN
    have hsN : env (sliceName (tokenOf N)) ≠ none := by
      rw [sliceName_tokenOf, hv]
      simp
    unfold ReplaceAllLiteral at ih ⊢
    rcases substituteIn_token_cases env P n with ⟨w, hw, hsub⟩ | hsub
    · -- the token has given way to its value
      simp only [List.map_cons, hsub, replaceToken, renderSegments, Segment.render]
      rw [replaceAllGo_append_of_none, ih]
      intro p1 p2 hp hne hpre
      have hwv := hvals (tokenOf n) w ⟨pre, renderSegments rest, hc'.symm⟩
        (matchesToken_tokenOf hn) (by rw [sliceName_tokenOf]; exact hw)
      rcases prefix_append_cases hpre with h1 | ⟨τ, hτ, hL, -⟩
      · refine hwv.2 (tokenOf N) hNc hmN hsN ?_
        rw [hp]
        exact h1.isInfix.trans (List.suffix_append p1 p2).isInfix
      · have := opensToken_of_proper_prefix hN hL hne hτ p1
        rw [← hp, hwv.1] at this
        exact Bool.false_ne_true this
    · by_cases hnN : n = N
      · subst hnN
        simp only [List.map_cons, hsub, replaceToken, if_true, renderSegments, Segment.render]
        rw [replaceAllGo_match _ _ _ (by simp [tokenOf]), ih]
      · simp only [List.map_cons, hsub, replaceToken, if_neg hnN, renderSegments, Segment.render]
        rw [replaceAllGo_append_of_none, ih]
        intro p1 p2 hp hne hpre
        by_cases hp1 : p1 = []
        · subst hp1
          simp only [List.nil_append] at hp
          rw [← hp] at hpre
          exact hnN (tokenOf_prefix_inj hN hn hpre).symm
        · rcases prefix_render_substituteIn env P (tokenOf N) rest p2 hpre with h1 | h1
          · obtain ⟨b, hb⟩ := h1
            have hsplit : c = (pre ++ p1) ++ tokenOf N ++ b := by
              rw [hc', hp]
              simp only [List.append_assoc]
              rw [← hb]
            have := hover (pre ++ p1) (tokenOf N) b hsplit hmN hsN pre (tokenOf n)
              (renderSegments rest) hc' (matchesToken_tokenOf hn) (by
                rw [List.length_append]
                have : 0 < p1.length := List.length_pos.2 hp1
                omega)
            rw [hp] at this
            simp only [List.length_append] at this
            have : 0 < p2.length := List.length_pos.2 hne
            omega
          · obtain ⟨B1, m, B2, w, τ, hB, hw, hτ, hL, hτw⟩ := h1
            have hm : isName m = true := Scanned_isName hs.2 (by rw [hB]; simp)
            refine junction_absurd env c hleft (pre ++ p1) (renderSegments B2) hN hm
              ?_ hw (by simp [hne]) hτ hL hτw
            rw [hc', hB, hp]
            simp [renderSegments, Segment.render, renderSegments_append]

theorem replaceToken_substituteIn (env : Env) (N v : GoString) (hv : env N = some v)
    (P : List GoString) (seg : Segment) :
    replaceToken N v (Segment.substituteIn env P seg) = Segment.substituteIn env (N :: P) seg := by
  cases seg with
  | text s => rfl
  | token n =>
    by_cases hnN : n = N
    · subst hnN
      by_cases hP : n ∈ P <;>
        simp [Segment.substituteIn, Segment.substitute, replaceToken, hv, hP]
    · by_cases hP : n ∈ P
      · cases hw : env n <;>
          simp [Segment.substituteIn, Segment.substitute, replaceToken, hnN, hP, hw]
      · simp [Segment.substituteIn, replaceToken, hnN, hP]

theorem mem_of_tokenNames : ∀ (segs : List Segment) (n : GoString),
    n ∈ tokenNames segs → Segment.token n ∈ segs
  | [], _, h => by simp [tokenNames] at h
  | Segment.text s :: rest, n, h => List.mem_cons_of_mem _ (mem_of_tokenNames rest n h)
  | Segment.token m :: rest, n, h => by
    rcases List.mem_cons.1 h with h1 | h1
    · rw [h1]
      exact List.mem_cons_self _ _
    · exact List.mem_cons_of_mem _ (mem_of_tokenNames rest n h1)

/-- The loop over the matches, on a layout of the content: after the steps for
the names of `L` the tokens of those names that are set have given way to their
values and nothing else has changed. -/
theorem foldl_interpolateStep_layout (env : Env) (c : GoString)
    (hover : ∀ a t b, c = a ++ t ++ b → matchesToken t = true → env (sliceName t) ≠ none →
      ∀ a' t' b', c = a' ++ t' ++ b' → matchesToken t' = true → a'.length < a.length →
        a'.length + t'.length ≤ a.length)
    (hleft : ∀ a t b v, c = a ++ t ++ b → matchesToken t = true → env (sliceName t) = some v →
      opensToken a = true → startsOutsideTokens v = true)
    (hvals : ∀ t v, t <:+: c → matchesToken t = true → env (sliceName t) = some v →
      opensToken v = false ∧
        ∀ u, u <:+: c → matchesToken u = true → env (sliceName u) ≠ none → ¬ u <:+: v)
    (segs : List Segment) (hs : Scanned segs) (hc : c = renderSegments segs) :
    ∀ (L P : List GoString), (∀ n ∈ L, Segment.token n ∈ segs) →
    (L.map tokenOf).foldl (interpolateStep env)
        (renderSegments (segs.map (Segment.substituteIn env P))) =
      renderSegments (segs.map (Segment.substituteIn env (L.reverse ++ P)))
  | [], P, _ => rfl
  | N :: L, P, hL => by
    have hL' : ∀ n ∈ L, Segment.token n ∈ segs := fun n hn => hL n (List.mem_cons_of_mem _ hn)
    have hNmem : Segment.token N ∈ segs := hL N (List.mem_cons_self _ _)
    have hlist : (N :: L).reverse ++ P = L.reverse ++ (N :: P) := by simp
    rw [List.map_cons, List.foldl_cons, hlist]
    cases hN : env N with
    | none =>
      have hstep : interpolateStep env
          (renderSegments (segs.map (Segment.substituteIn env P))) (tokenOf N) =
          renderSegments (segs.map (Segment.substituteIn env (N :: P))) := by
        simp only [interpolateStep, sliceName_tokenOf, hN]
        congr 1
        exact List.map_congr_left (fun seg _ => (substituteIn_cons_unset env N P hN seg).symm)
      rw [hstep]
      exact foldl_interpolateStep_layout env c hover hleft hvals segs hs hc L (N :: P) hL'
    | some v =>
      have hstep : interpolateStep env
          (renderSegments (segs.map (Segment.substituteIn env P))) (tokenOf N) =
          renderSegments (segs.map (Segment.substituteIn env (N :: P))) := by
        simp only [interpolateStep, sliceName_tokenOf, hN]
        rw [ReplaceAllLiteral_layout env c hover hleft hvals P N v (Scanned_isName hs hNmem)
          (by rw [hc]; exact tokenOf_infix_of_mem segs N hNmem) hN segs [] hs (by simpa using hc),
          List.map_map]
        congr 1
        exact List.map_congr_left (fun seg _ => replaceToken_substituteIn env N v hN P seg)
      rw [hstep]
      exact foldl_interpolateStep_layout env c hover hleft hvals segs hs hc L (N :: P) hL'

/-- Where no set token of the content is overlapped from the left, none follows
the beginning of a token unless its value begins outside every token, and no
value ends with the beginning of a token or contains a set token of the content,
going through the matches in any order and any number of times computes the
simultaneous substitution. -/
theorem foldl_eq_simultaneousSubstitution (env : Env) (c : GoString)
    (hover : ∀ a t b, c = a ++ t ++ b → matchesToken t = true → env (sliceName t) ≠ none →
      ∀ a' t' b', c = a' ++ t' ++ b' → matchesToken t' = true → a'.length < a.length →
        a'.length + t'.length ≤ a.length)
    (hleft : ∀ a t b v, c = a ++ t ++ b → matchesToken t = true → env (sliceName t) = some v →
      opensToken a = true → startsOutsideTokens v = true)
    (hvals : ∀ t v, t <:+: c → matchesToken t = true → env (sliceName t) = some v →
      opensToken v = false ∧
        ∀ u, u <:+: c → matchesToken u = true → env (sliceName u) ≠ none → ¬ u <:+: v)
    (L : List GoString) (hL : ∀ t, t ∈ L ↔ t ∈ FindAll c) :
    L.foldl (interpolateStep env) c = simultaneousSubstitution env c := by
  obtain ⟨segs, hr, hs⟩ := exists_scanned c.length c (Nat.le_refl _)
  have hfind : FindAll c = (tokenNames segs).map tokenOf := by
    rw [← hr]
    exact FindAll_render segs hs
  have hnames : L = (L.map sliceName).map tokenOf := by
    rw [List.map_map]
    refine (List.map_id L).symm.trans (List.map_congr_left ?_)
    intro t ht
    have := (hL t).1 ht
    rw [hfind, List.mem_map] at this
    obtain ⟨n, -, rfl⟩ := this
    simp [sliceName_tokenOf]
  have hmem : ∀ n ∈ L.map sliceName, Segment.token n ∈ segs := by
    intro n hn
    obtain ⟨t, ht, rfl⟩ := List.mem_map.1 hn
    have := (hL t).1 ht
    rw [hfind, List.mem_map] at this
    obtain ⟨m, hm, rfl⟩ := this
    rw [sliceName_tokenOf]
    exact mem_of_tokenNames segs m hm
  have h0 : c = renderSegments (segs.map (Segment.substituteIn env [])) := by
    rw [substituteIn_nil, hr]
  rw [hnames]
  conv_lhs => rw [h0]
  rw [foldl_interpolateStep_layout env c hover hleft hvals segs hs hr.symm (L.map sliceName) []
    hmem, ← hr, simultaneousSubstitution_render env segs hs]
  congr 1
  apply List.map_congr_left
  intro seg hseg
  cases seg with
  | text s => rfl
  | token n =>
    have hn : n ∈ L.map sliceName := by
      have h1 : tokenOf n ∈ FindAll c := by
        rw [hfind]
        exact List.mem_map_of_mem _ (tokenNames_mem segs n hseg)
      have h2 := List.mem_map_of_mem sliceName ((hL _).2 h1)
      rwa [sliceName_tokenOf] at h2
    simp [Segment.substituteIn, hn]

theorem interpolate_eq_simultaneousSubstitution (env : Env) (c : GoString)
    (hover : ∀ a t b, c = a ++ t ++ b → matchesToken t = true → env (sliceName t) ≠ none →
      ∀ a' t' b', c = a' ++ t' ++ b' → matchesToken t' = true → a'.length < a.length →
        a'.length + t'.length ≤ a.length)
    (hleft : ∀ a t b v, c = a ++ t ++ b → matchesToken t = true → env (sliceName t) = some v →
      opensToken a = true → startsOutsideTokens v = true)
    (hvals : ∀ t v, t <:+: c → matchesToken t = true → env (sliceName t) = some v →
      opensToken v = false ∧
        ∀ u, u <:+: c → matchesToken u = true → env (sliceName u) ≠ none → ¬ u <:+: v) :
    interpolate env c = simultaneousSubstitution env c :=
  foldl_eq_simultaneousSubstitution env c hover hleft hvals (FindAll c) (fun _ => Iff.rfl)

/-! ### Which matching substrings the scan finds -/

theorem mem_findAllGo_of_no_left_overlap (t post : GoString) (ht : matchesToken t = true) :
    ∀ (k : Nat) (p2 : GoString), p2.length ≤ k →
      (∀ a m b, p2 ++ (t ++ post) = a ++ (m ++ b) → matchesToken m = true →
        a.length < p2.length → a.length + m.length ≤ p2.length) →
      t ∈ findAllGo 0 (p2 ++ (t ++ post)) := by
  obtain ⟨n, hn, rfl⟩ := matchesToken_iff.1 ht
  have hbase : tokenOf n ∈ findAllGo 0 (tokenOf n ++ post) := by
    rw [findAllGo_match (matchTokenAt_tokenOf hn post)]
    exact List.mem_cons_self _ _
  intro k
  induction k with
  | zero =>
    intro p2 hlen _
    have : p2 = [] := List.length_eq_zero.1 (Nat.le_zero.1 hlen)
    subst this
    exact hbase
  | succ k ih =>
    intro p2 hlen hleft
    cases p2 with
    | nil => exact hbase
    | cons c p2' =>
      have hlen' : p2'.length ≤ k := by
        simp only [List.length_cons] at hlen
        omega
      cases hm : matchTokenAt (c :: p2' ++ (tokenOf n ++ post)) with
      | none =>
        simp only [List.cons_append] at hm ⊢
        rw [findAllGo, hm]
        apply ih p2' hlen'
        intro a m b hsplit hmt ha
        have := hleft (c :: a) m b (by simp [hsplit]) hmt (by simpa using ha)
        simp only [List.length_cons] at this
        omega
      | some mr =>
        obtain ⟨m, r⟩ := mr
        obtain ⟨hs, hmt⟩ := matchTokenAt_sound hm
        have hmlen : m.length ≤ (c :: p2').length := by
          have := hleft [] m r (by simpa using hs) hmt (by simp)
          simpa using this
        have hmpos : 0 < m.length := by
          obtain ⟨n', -, rfl⟩ := matchesToken_iff.1 hmt
          simp [tokenOf]
        have hpre : m <+: c :: p2' :=
          List.prefix_of_prefix_length_le ⟨r, hs.symm⟩ ⟨tokenOf n ++ post, rfl⟩ hmlen
        obtain ⟨p2'', hp2''⟩ := hpre
        have hr : r = p2'' ++ (tokenOf n ++ post) := by
          have h1 : m ++ r = m ++ (p2'' ++ (tokenOf n ++ post)) := by
            rw [← hs, ← hp2'', List.append_assoc]
          exact List.append_cancel_left h1
        have hlen2 : p2''.length ≤ k := by
          have h1 : (c :: p2').length = m.length + p2''.length := by
            rw [← hp2'', List.length_append]
          simp only [List.length_cons] at h1 hlen
          omega
        rw [findAllGo_match hm, hr]
        apply List.mem_cons_of_mem
        apply ih p2'' hlen2
        intro a m' b hsplit hmt' ha
        have hsplit' : c :: p2' ++ (tokenOf n ++ post) = (m ++ a) ++ (m' ++ b) := by
          rw [← hp2'', List.append_assoc, hsplit, List.append_assoc]
        have h1 : (c :: p2').length = m.length + p2''.length := by
          rw [← hp2'', List.length_append]
        have := hleft (m ++ a) m' b hsplit' hmt' (by rw [List.length_append, h1]; omega)
        rw [List.length_append, h1] at this
        omega

/-! ### The substitution on either side of a match -/

theorem matchTokenAt_append {s m r : GoString} (h : matchTokenAt s = some (m, r))
    (X : GoString) : matchTokenAt (s ++ X) = some (m, r ++ X) := by
  obtain ⟨hs, hm⟩ := matchTokenAt_sound h
  obtain ⟨n, hn, rfl⟩ := matchesToken_iff.1 hm
  rw [hs, List.append_assoc]
  exact matchTokenAt_tokenOf hn _

theorem substituteGo_split (env : Env) (X : GoString) : ∀ (k : Nat) (a : GoString),
    a.length ≤ k →
    (∀ a' m r, a ++ X = a' ++ m ++ r → matchesToken m = true → a'.length < a.length →
      a'.length + m.length ≤ a.length) →
    substituteGo env 0 true (a ++ X) =
      substituteGo env 0 true a ++ substituteGo env 0 true X
  | _, [], _, _ => rfl
  | 0, _ :: _, h, _ => absurd h (by simp)
  | k + 1, ch :: a, hk, hin => by
    have hlen : a.length ≤ k := by
      simp only [List.length_cons] at hk
      omega
    cases hm : matchTokenAt (ch :: a ++ X) with
    | none =>
      have hm' : matchTokenAt (ch :: a) = none := by
        cases hma : matchTokenAt (ch :: a) with
        | none => rfl
        | some mr =>
          rw [matchTokenAt_append hma X] at hm
          exact absurd hm (by simp)
      simp only [List.cons_append] at hm ⊢
      rw [substituteGo, hm, substituteGo, hm']
      simp only [List.cons_append, List.cons.injEq, true_and]
      apply substituteGo_split env X k a hlen
      intro a' m r hsplit hmt ha
      have := hin (ch :: a') m r (by simp [hsplit]) hmt (by simpa using ha)
      simp only [List.length_cons] at this
      omega
    | some mr =>
      obtain ⟨m, r⟩ := mr
      obtain ⟨hs, hmt⟩ := matchTokenAt_sound hm
      have hmlen : m.length ≤ (ch :: a).length := by
        have := hin [] m r (by simpa using hs) hmt (by simp)
        simpa using this
      have hpre : m <+: ch :: a :=
        List.prefix_of_prefix_length_le ⟨r, hs.symm⟩ ⟨X, rfl⟩ hmlen
      obtain ⟨a2, ha2⟩ := hpre
      obtain ⟨n, hn, rfl⟩ := matchesToken_iff.1 hmt
      have hr : r = a2 ++ X := by
        have h1 : tokenOf n ++ r = tokenOf n ++ (a2 ++ X) := by
          rw [← hs, ← ha2, List.append_assoc]
        exact List.append_cancel_left h1
      have hlen2 : a2.length ≤ k := by
        have h1 : (ch :: a).length = (tokenOf n).length + a2.length := by
          rw [← ha2, List.length_append]
        simp only [List.length_cons, tokenOf] at h1 hk
        omega
      have h1 : (ch :: a).length = (tokenOf n).length + a2.length := by
        rw [← ha2, List.length_append]
      rw [← ha2, List.append_assoc, substituteGo_token env n _ hn, substituteGo_token env n _ hn,
        List.append_assoc]
      congr 1
      apply substituteGo_split env X k a2 hlen2
      intro a' m' r' hsplit hmt' ha
      have hsplit' : ch :: a ++ X = (tokenOf n ++ a') ++ m' ++ r' := by
        rw [← ha2, List.append_assoc, hsplit]
        simp
      have := hin (tokenOf n ++ a') m' r' hsplit' hmt' (by rw [List.length_append, h1]; omega)
      rw [List.length_append, h1] at this
      omega

/-- Under the conditions of `foldl_eq_simultaneousSubstitution`, a
matching substring whose name is set gives way to the value, and what precedes
and what follows it are interpolated on their own. -/
theorem interpolate_split (env : Env) (c a t b v : GoString) (hc : c = a ++ t ++ b)
    (ht : matchesToken t = true) (hv : env (sliceName t) = some v)
    (hover : ∀ a t b, c = a ++ t ++ b → matchesToken t = true → env (sliceName t) ≠ none →
      ∀ a' t' b', c = a' ++ t' ++ b' → matchesToken t' = true → a'.length < a.length →
        a'.length + t'.length ≤ a.length)
    (hleft : ∀ a t b v, c = a ++ t ++ b → matchesToken t = true → env (sliceName t) = some v →
      opensToken a = true → startsOutsideTokens v = true)
    (hvals : ∀ t v, t <:+: c → matchesToken t = true → env (sliceName t) = some v →
      opensToken v = false ∧
        ∀ u, u <:+: c → matchesToken u = true → env (sliceName u) ≠ none → ¬ u <:+: v) :
    interpolate env c = interpolate env a ++ v ++ interpolate env b := by
  have hia : a <:+: c := ⟨[], t ++ b, by rw [hc]; simp⟩
  have hib : b <:+: c := ⟨a ++ t, [], by rw [hc]; simp⟩
  have hA : interpolate env a = simultaneousSubstitution env a := by
    apply interpolate_eq_simultaneousSubstitution
    · intro x u y hx hu hset x' u' y' hx' hu' hlt
      exact hover x u (y ++ (t ++ b)) (by rw [hc, hx]; simp) hu hset x' u' (y' ++ (t ++ b))
        (by rw [hc, hx']; simp) hu' hlt
    · intro x u y w hx hu hw hopen
      exact hleft x u (y ++ (t ++ b)) w (by rw [hc, hx]; simp) hu hw hopen
    · intro u w hu hm hw
      obtain ⟨h1, h2⟩ := hvals u w (hu.trans hia) hm hw
      exact ⟨h1, fun u' hu' hm' hs' => h2 u' (hu'.trans hia) hm' hs'⟩
  have hB : interpolate env b = simultaneousSubstitution env b := by
    apply interpolate_eq_simultaneousSubstitution
    · intro x u y hx hu hset x' u' y' hx' hu' hlt
      have := hover (a ++ t ++ x) u y (by rw [hc, hx]; simp) hu hset (a ++ t ++ x') u' y'
        (by rw [hc, hx']; simp) hu' (by simp only [List.length_append]; omega)
      simp only [List.length_append] at this
      omega
    · intro x u y w hx hu hw hopen
      exact hleft (a ++ t ++ x) u y w (by rw [hc, hx]; simp) hu hw
        (opensToken_append_left _ hopen)
    · intro u w hu hm hw
      obtain ⟨h1, h2⟩ := hvals u w (hu.trans hib) hm hw
      exact ⟨h1, fun u' hu' hm' hs' => h2 u' (hu'.trans hib) hm' hs'⟩
  rw [interpolate_eq_simultaneousSubstitution env c hover hleft hvals, hA, hB, hc]
  obtain ⟨n, hn, rfl⟩ := matchesToken_iff.1 ht
  rw [sliceName_tokenOf] at hv
  unfold simultaneousSubstitution
  rw [List.append_assoc, substituteGo_split env (tokenOf n ++ b) a.length a (Nat.le_refl _),
    substituteGo_token env n b hn]
  · simp [Segment.substitute, hv, Segment.render]
  · intro a' m r hsplit hm hlt
    exact hover a (tokenOf n) b (by rw [hc]) (matchesToken_tokenOf hn)
      (by rw [sliceName_tokenOf, hv]; simp) a' m r (by rw [hc, ← hsplit]; simp) hm hlt

/-! ### Checking the three conditions on a concrete content -/

theorem drop_of_split {c a t b : GoString} (h : c = a ++ t ++ b) :
    c.drop a.length = t ++ b := by
  rw [h, List.append_assoc, List.drop_left]

theorem take_of_split {c a t b : GoString} (h : c = a ++ t ++ b) :
    c.take a.length = a := by
  rw [h, List.append_assoc, List.take_left]

theorem length_lt_of_split {c a t b : GoString} (h : c = a ++ t ++ b)
    (ht : matchesToken t = true) : a.length < c.length := by
  obtain ⟨n, -, rfl⟩ := matchesToken_iff.1 ht
  rw [h]
  simp [tokenOf]

theorem no_overlap_of_scan (env : Env) (c : GoString)
    (h : (List.range c.length).all (fun j =>
      match matchTokenAt (c.drop j) with
      | some (m, _) => (List.range (m.length - 1)).all (fun k =>
          match matchTokenAt (c.drop (j + 1 + k)) with
          | some (u, _) => (env (sliceName u)).isNone
          | none => true)
      | none => true) = true) :
    ∀ a t b, c = a ++ t ++ b → matchesToken t = true → env (sliceName t) ≠ none →
      ∀ a' t' b', c = a' ++ t' ++ b' → matchesToken t' = true → a'.length < a.length →
        a'.length + t'.length ≤ a.length := by
  intro a t b hc ht hset a' t' b' hc' ht' hlt
  by_contra hgt
  have hj := List.all_eq_true.1 h a'.length (List.mem_range.2 (length_lt_of_split hc' ht'))
  obtain ⟨n', hn', rfl⟩ := matchesToken_iff.1 ht'
  obtain ⟨n, hn, rfl⟩ := matchesToken_iff.1 ht
  rw [drop_of_split hc', matchTokenAt_tokenOf hn' b'] at hj
  have hk := List.all_eq_true.1 hj (a.length - a'.length - 1) (List.mem_range.2 (by omega))
  have hidx : a'.length + 1 + (a.length - a'.length - 1) = a.length := by omega
  rw [hidx, drop_of_split hc, matchTokenAt_tokenOf hn b] at hk
  simp only [Option.isNone_iff_eq_none] at hk
  exact hset hk

theorem junctions_of_scan (env : Env) (c : GoString)
    (h : (List.range c.length).all (fun i =>
      match matchTokenAt (c.drop i) with
      | some (t, _) =>
        match env (sliceName t) with
        | some v => !opensToken (c.take i) || startsOutsideTokens v
        | none => true
      | none => true) = true) :
    ∀ a t b v, c = a ++ t ++ b → matchesToken t = true → env (sliceName t) = some v →
      opensToken a = true → startsOutsideTokens v = true := by
  intro a t b v hc ht hv hopen
  have hi := List.all_eq_true.1 h a.length (List.mem_range.2 (length_lt_of_split hc ht))
  obtain ⟨n, hn, rfl⟩ := matchesToken_iff.1 ht
  rw [drop_of_split hc, matchTokenAt_tokenOf hn b] at hi
  simp only [hv, take_of_split hc, hopen, Bool.not_true, Bool.false_or] at hi
  exact hi

theorem values_of_scan (env : Env) (c : GoString)
    (h : (List.range c.length).all (fun i =>
      match matchTokenAt (c.drop i) with
      | some (t, _) =>
        match env (sliceName t) with
        | some v => !opensToken v && (List.range c.length).all (fun j =>
            match matchTokenAt (c.drop j) with
            | some (u, _) => (env (sliceName u)).isNone || v.tails.all (fun s => !u.isPrefixOf s)
            | none => true)
        | none => true
      | none => true) = true) :
    ∀ t v, t <:+: c → matchesToken t = true → env (sliceName t) = some v →
      opensToken v = false ∧
        ∀ u, u <:+: c → matchesToken u = true → env (sliceName u) ≠ none → ¬ u <:+: v := by
  intro t v ⟨a, b, hc⟩ ht hv
  have hi := List.all_eq_true.1 h a.length (List.mem_range.2 (length_lt_of_split hc.symm ht))
  obtain ⟨n, hn, rfl⟩ := matchesToken_iff.1 ht
  rw [drop_of_split hc.symm, matchTokenAt_tokenOf hn b] at hi
  simp only [hv, Bool.and_eq_true, Bool.not_eq_true'] at hi
  refine ⟨hi.1, ?_⟩
  rintro u ⟨a', b', hc'⟩ hu hset ⟨x, y, hxy⟩
  have hj := List.all_eq_true.1 hi.2 a'.length
    (List.mem_range.2 (length_lt_of_split hc'.symm hu))
  obtain ⟨m, hm, rfl⟩ := matchesToken_iff.1 hu
  rw [drop_of_split hc'.symm, matchTokenAt_tokenOf hm b'] at hj
  simp only [Bool.or_eq_true, Option.isNone_iff_eq_none, List.all_eq_true,
    Bool.not_eq_true'] at hj
  rcases hj with hj | hj
  · exact hset hj
  · have := hj (tokenOf m ++ y) (by
      rw [List.mem_tails]
      exact ⟨x, by rw [← hxy]; simp⟩)
    rw [← Bool.not_eq_true, List.isPrefixOf_iff_prefix] at this
    exact this ⟨y, rfl⟩

/-- C16, worked input: the rows of `TestMesosStatsGetMetrics` and of the error
tests.  A payload with `master/elected` 0 gives the empty, present map; a body
that does not decode, a status 500 and a failed request give the nil result. -/
theorem getMetrics_empty_versus_no_data_witness :
    getMetrics (fun b => if b = "ok".toList then
          some [("frameworks/chronos/messages_processed".toList, Float64.ofInt 6784068),
            ("master/elected".toList, Float64.ofInt 0)] else none)
        (HttpOutcome.response 200 "ok".toList) = some [] ∧
    getMetrics (fun b => if b = "ok".toList then
          some [("frameworks/chronos/messages_processed".toList, Float64.ofInt 6784068),
            ("master/elected".toList, Float64.ofInt 0)] else none)
        (HttpOutcome.response 200 "broken".toList) = none ∧
    getMetrics (fun b => if b = "ok".toList then
          some [("frameworks/chronos/messages_processed".toList, Float64.ofInt 6784068),
            ("master/elected".toList, Float64.ofInt 0)] else none)
        (HttpOutcome.response 500 "Custom error".toList) = none ∧
    getMetrics (fun b => if b = "ok".toList then
          some [("frameworks/chronos/messages_processed".toList, Float64.ofInt 6784068),
            ("master/elected".toList, Float64.ofInt 0)] else none)
        (HttpOutcome.failed { msg := "unsupported protocol scheme".toList }) = none :=
  ⟨(getMetrics_empty_versus_no_data _ _).1.2
      ⟨200, "ok".toList, _, rfl, by decide, by rfl, by decide⟩,
   (getMetrics_empty_versus_no_data _ _).2.1.2
      (Or.inr ⟨200, "broken".toList, rfl, Or.inr (by rfl)⟩),
   (getMetrics_empty_versus_no_data _ _).2.1.2
      (Or.inr ⟨500, "Custom error".toList, rfl, Or.inl (by decide)⟩),
   (getMetrics_empty_versus_no_data _ _).2.1.2 (Or.inl ⟨_, rfl⟩)⟩

/-- C19 (amended): for a file content and an environment such that (a) no
substring of the content that matches the token pattern and names a set variable
is overlapped by a matching substring that begins before it, (b) wherever such
a substring directly follows the beginning of a token, the variable's value is
not empty and begins with a character that is neither a percent sign nor one of
`[A-Z0-9_]`, and (c) the value of such a variable neither ends with the
beginning of a token nor contains a substring of the content that matches the
pattern and names a set variable, the output of
`interpolateEnvvarsIntoConfigRead` is the simultaneous substitution: the
content with each leftmost non-overlapping match whose name is set replaced once
by the variable's value, and every other character left as it is.  The result
is the same in whatever order and however many times the matches are gone
through. -/
theorem interpolateEnvvarsIntoConfigRead_simultaneous (fs : FileSystem) (env : Env)
    (configFile c : GoString) (e : Option GoError) (hfile : fs configFile = (c, e))
    (hover : ∀ a t b, c = a ++ t ++ b → matchesToken t = true → env (sliceName t) ≠ none →
      ∀ a' t' b', c = a' ++ t' ++ b' → matchesToken t' = true → a'.length < a.length →
        a'.length + t'.length ≤ a.length)
    (hleft : ∀ a t b v, c = a ++ t ++ b → matchesToken t = true → env (sliceName t) = some v →
      opensToken a = true → startsOutsideTokens v = true)
    (hvals : ∀ t v, t <:+: c → matchesToken t = true → env (sliceName t) = some v →
      opensToken v = false ∧
        ∀ u, u <:+: c → matchesToken u = true → env (sliceName u) ≠ none → ¬ u <:+: v) :
    interpolateEnvvarsIntoConfigRead fs env configFile =
      (simultaneousSubstitution env c, e) ∧
    ∀ L : List GoString, (∀ t, t ∈ L ↔ t ∈ FindAll c) →
      L.foldl (interpolateStep env) c = simultaneousSubstitution env c := by
  refine ⟨?_, foldl_eq_simultaneousSubstitution env c hover hleft hvals⟩
  unfold interpolateEnvvarsIntoConfigRead
  rw [hfile]
  simp only
  rw [interpolate_eq_simultaneousSubstitution env c hover hleft hvals]

set_option maxRecDepth 1000000 in
/-- C19, worked input: the percent-sign forms of the test configuration.  With
`PREFIX`, `IS_NOT_AFFECTED`, `TS1`, `1MISSISSIPPI` and `this_is_lowercase` set,
both tokens of `PREFIX` give way to `fullerite.`, and the single-percent forms,
the unset token, the short name, the name starting with a digit, the lowercase
name and the `50%` stay as they are. -/
theorem interpolateEnvvarsIntoConfigRead_simultaneous_witness :
    interpolateEnvvarsIntoConfigRead
        (fileSystemOf [("/etc/fullerite.conf".toList,
          ("prefix=%%PREFIX%%;p1=%IS_NOT_AFFECTED;p2=%IS_NOT_AFFECTED%;" ++
           "p3=%%IS_NOT_AFFECTED%;p4=%%UNSET_VAR%%;s=a%%TS1%%b;d=%%1MISSISSIPPI%%;" ++
           "l=%%this_is_lowercase%%;rate=50%;again=%%PREFIX%%").toList)])
        (envOf [("PREFIX".toList, "fullerite.".toList),
          ("IS_NOT_AFFECTED".toList, "this should not appear".toList),
          ("TS1".toList, "qwef1%%TS1%%wwskfe".toList),
          ("1MISSISSIPPI".toList, "no".toList), ("this_is_lowercase".toList, "no".toList)])
        "/etc/fullerite.conf".toList =
      (("prefix=fullerite.;p1=%IS_NOT_AFFECTED;p2=%IS_NOT_AFFECTED%;" ++
        "p3=%%IS_NOT_AFFECTED%;p4=%%UNSET_VAR%%;s=a%%TS1%%b;d=%%1MISSISSIPPI%%;" ++
        "l=%%this_is_lowercase%%;rate=50%;again=fullerite.").toList, none) :=
  (interpolateEnvvarsIntoConfigRead_simultaneous
    (fileSystemOf [("/etc/fullerite.conf".toList,
      ("prefix=%%PREFIX%%;p1=%IS_NOT_AFFECTED;p2=%IS_NOT_AFFECTED%;" ++
       "p3=%%IS_NOT_AFFECTED%;p4=%%UNSET_VAR%%;s=a%%TS1%%b;d=%%1MISSISSIPPI%%;" ++
       "l=%%this_is_lowercase%%;rate=50%;again=%%PREFIX%%").toList)])
    (envOf [("PREFIX".toList, "fullerite.".toList),
      ("IS_NOT_AFFECTED".toList, "this should not appear".toList),
      ("TS1".toList, "qwef1%%TS1%%wwskfe".toList),
      ("1MISSISSIPPI".toList, "no".toList), ("this_is_lowercase".toList, "no".toList)])
    "/etc/fullerite.conf".toList
    ("prefix=%%PREFIX%%;p1=%IS_NOT_AFFECTED;p2=%IS_NOT_AFFECTED%;" ++
     "p3=%%IS_NOT_AFFECTED%;p4=%%UNSET_VAR%%;s=a%%TS1%%b;d=%%1MISSISSIPPI%%;" ++
     "l=%%this_is_lowercase%%;rate=50%;again=%%PREFIX%%").toList
    none (by rfl)
    (no_overlap_of_scan _ _ (by decide))
    (junctions_of_scan _ _ (by decide))
    (values_of_scan _ _ (by decide))).1.trans (by decide)

set_option maxRecDepth 100000 in
/-- C19, as stated, fails: with `AAAAA` set to `%%BBBBB%%` and `BBBBB` set to `x`,
the file `%%AAAAA%% %%BBBBB%%` is read as `x x`, while the simultaneous
substitution gives `%%BBBBB%% x`: the text inserted for the first token is
interpolated by the step for the second. -/
theorem interpolateEnvvarsIntoConfigRead_reinterpolates :
    interpolateEnvvarsIntoConfigRead
        (fileSystemOf [("/etc/fullerite.conf".toList, "%%AAAAA%% %%BBBBB%%".toList)])
        (envOf [("AAAAA".toList, "%%BBBBB%%".toList), ("BBBBB".toList, "x".toList)])
        "/etc/fullerite.conf".toList = ("x x".toList, none) ∧
    simultaneousSubstitution
        (envOf [("AAAAA".toList, "%%BBBBB%%".toList), ("BBBBB".toList, "x".toList)])
        "%%AAAAA%% %%BBBBB%%".toList = "%%BBBBB%% x".toList ∧
    "x x".toList ≠ "%%BBBBB%% x".toList := by
  refine ⟨by decide, by decide, by decide⟩

/-- C20 (amended): for a file content and an environment such that (a) no
substring of the content that matches the token pattern and names a set variable
is overlapped by a matching substring that begins before it, (b) wherever such
a substring directly follows the beginning of a token, the variable's value is
not empty and begins with a character that is neither a percent sign nor one of
`[A-Z0-9_]`, and (c) the value of such a variable neither ends with the
beginning of a token nor contains a substring of the content that matches the
pattern and names a set variable: every substring `t` of the content that
matches the token pattern and whose name is set is looked up and replaced by the
variable's value; with the content `a ++ t ++ b`, the output is the
interpolation of `a`, then the value, then the interpolation of `b`. -/
theorem matching_substring_replaced (fs : FileSystem) (env : Env)
    (configFile c a t b v : GoString) (e : Option GoError)
    (hfile : fs configFile = (c, e)) (hc : c = a ++ t ++ b)
    (ht : matchesToken t = true) (hv : env (sliceName t) = some v)
    (hover : ∀ a t b, c = a ++ t ++ b → matchesToken t = true → env (sliceName t) ≠ none →
      ∀ a' t' b', c = a' ++ t' ++ b' → matchesToken t' = true → a'.length < a.length →
        a'.length + t'.length ≤ a.length)
    (hleft : ∀ a t b v, c = a ++ t ++ b → matchesToken t = true → env (sliceName t) = some v →
      opensToken a = true → startsOutsideTokens v = true)
    (hvals : ∀ t v, t <:+: c → matchesToken t = true → env (sliceName t) = some v →
      opensToken v = false ∧
        ∀ u, u <:+: c → matchesToken u = true → env (sliceName u) ≠ none → ¬ u <:+: v) :
    t ∈ FindAll c ∧
    interpolateEnvvarsIntoConfigRead fs env configFile =
      (interpolate env a ++ v ++ interpolate env b, e) := by
  constructor
  · have hset : env (sliceName t) ≠ none := by
      rw [hv]
      simp
    unfold FindAll
    rw [hc, List.append_assoc]
    apply mem_findAllGo_of_no_left_overlap t b ht a.length a (Nat.le_refl _)
    intro a' m b' hsplit hm ha
    exact hover a t b hc ht hset a' m b'
      (by rw [hc, List.append_assoc, hsplit, List.append_assoc]) hm ha
  · unfold interpolateEnvvarsIntoConfigRead
    rw [hfile]
    simp only
    rw [interpolate_split env c a t b v hc ht hv hover hleft hvals]

set_option maxRecDepth 1000000 in
/-- C20, worked input: in `rate=50%;host=%%HOST_NAME%%;port=%%PORT_NUMBER%%;`
followed by `%%UNSET_VAR%%%` the token of `HOST_NAME` is looked up and gives way
to `web1`; what precedes it stays, and what follows it is interpolated on its
own, `PORT_NUMBER` giving way to `8080`. -/
theorem matching_substring_replaced_witness :
    "%%HOST_NAME%%".toList ∈
      FindAll "rate=50%;host=%%HOST_NAME%%;port=%%PORT_NUMBER%%;%%UNSET_VAR%%%".toList ∧
    interpolateEnvvarsIntoConfigRead
        (fileSystemOf [("/etc/fullerite.conf".toList,
          "rate=50%;host=%%HOST_NAME%%;port=%%PORT_NUMBER%%;%%UNSET_VAR%%%".toList)])
        (envOf [("HOST_NAME".toList, "web1".toList), ("PORT_NUMBER".toList, "8080".toList)])
        "/etc/fullerite.conf".toList =
      ("rate=50%;host=web1;port=8080;%%UNSET_VAR%%%".toList, none) :=
  ⟨(matching_substring_replaced
      (fileSystemOf [("/etc/fullerite.conf".toList,
        "rate=50%;host=%%HOST_NAME%%;port=%%PORT_NUMBER%%;%%UNSET_VAR%%%".toList)])
      (envOf [("HOST_NAME".toList, "web1".toList), ("PORT_NUMBER".toList, "8080".toList)])
      "/etc/fullerite.conf".toList
      "rate=50%;host=%%HOST_NAME%%;port=%%PORT_NUMBER%%;%%UNSET_VAR%%%".toList
      "rate=50%;host=".toList "%%HOST_NAME%%".toList
      ";port=%%PORT_NUMBER%%;%%UNSET_VAR%%%".toList "web1".toList none
      (by rfl) (by decide) (by decide) (by decide)
      (no_overlap_of_scan _ _ (by decide))
      (junctions_of_scan _ _ (by decide))
      (values_of_scan _ _ (by decide))).1,
   (matching_substring_replaced
      (fileSystemOf [("/etc/fullerite.conf".toList,
        "rate=50%;host=%%HOST_NAME%%;port=%%PORT_NUMBER%%;%%UNSET_VAR%%%".toList)])
      (envOf [("HOST_NAME".toList, "web1".toList), ("PORT_NUMBER".toList, "8080".toList)])
      "/etc/fullerite.conf".toList
      "rate=50%;host=%%HOST_NAME%%;port=%%PORT_NUMBER%%;%%UNSET_VAR%%%".toList
      "rate=50%;host=".toList "%%HOST_NAME%%".toList
      ";port=%%PORT_NUMBER%%;%%UNSET_VAR%%%".toList "web1".toList none
      (by rfl) (by decide) (by decide) (by decide)
      (no_overlap_of_scan _ _ (by decide))
      (junctions_of_scan _ _ (by decide))
      (values_of_scan _ _ (by decide))).2.trans (by decide)⟩

set_option maxRecDepth 100000 in
/-- C20, as stated, fails: in `%%ABCDE%%NAMEX%%` the substring `%%NAMEX%%`
matches the token pattern and `NAMEX` is set to `x`, but it shares its opening
percent signs with the match `%%ABCDE%%`; it is not among the matches looked
up and the file is returned unchanged. -/
theorem overlapping_token_not_looked_up :
    "%%NAMEX%%".toList <:+: "%%ABCDE%%NAMEX%%".toList ∧
    matchesToken "%%NAMEX%%".toList = true ∧
    envOf [("NAMEX".toList, "x".toList)] (sliceName "%%NAMEX%%".toList) = some "x".toList ∧
    "%%NAMEX%%".toList ∉ FindAll "%%ABCDE%%NAMEX%%".toList ∧
    interpolateEnvvarsIntoConfigRead
        (fileSystemOf [("/etc/fullerite.conf".toList, "%%ABCDE%%NAMEX%%".toList)])
        (envOf [("NAMEX".toList, "x".toList)]) "/etc/fullerite.conf".toList =
      ("%%ABCDE%%NAMEX%%".toList, none) := by
  refine ⟨⟨"%%ABCDE".toList, [], by decide⟩, by decide, by decide, by decide, by decide⟩

/-! ### Why each condition is there -/

set_option maxRecDepth 1000000 in
/-- Without condition (a) the simultaneous substitution is not what the loop
computes: in `%%ABCDE%%NAMEX%% %%NAMEX%%` with only `NAMEX` set, the step for
`%%NAMEX%%` also replaces the occurrence that the match `%%ABCDE%%` overlaps. -/
theorem interpolate_overlapped_occurrence :
    interpolate (envOf [("NAMEX".toList, "x".toList)]) "%%ABCDE%%NAMEX%% %%NAMEX%%".toList =
      "%%ABCDEx x".toList ∧
    simultaneousSubstitution (envOf [("NAMEX".toList, "x".toList)])
      "%%ABCDE%%NAMEX%% %%NAMEX%%".toList = "%%ABCDE%%NAMEX%% x".toList := by
  refine ⟨by decide, by decide⟩

set_option maxRecDepth 1000000 in
/-- Without condition (b) the simultaneous substitution is not what the loop
computes: in `%%C%%AAAAA%%%%;%%CCCCC%%` the token of `AAAAA` follows the
beginning `%%C`, and with `AAAAA` set to `CCCC` its value completes the token
`%%CCCCC%%`, which the step for `CCCCC` then replaces. -/
theorem interpolate_value_after_token_beginning :
    interpolate (envOf [("AAAAA".toList, "CCCC".toList), ("CCCCC".toList, "x".toList)])
      "%%C%%AAAAA%%%%;%%CCCCC%%".toList = "x;x".toList ∧
    simultaneousSubstitution
      (envOf [("AAAAA".toList, "CCCC".toList), ("CCCCC".toList, "x".toList)])
      "%%C%%AAAAA%%%%;%%CCCCC%%".toList = "%%CCCCC%%;x".toList := by
  refine ⟨by decide, by decide⟩

set_option maxRecDepth 1000000 in
/-- Without the first half of condition (c) the simultaneous substitution is
not what the loop computes: in `%%AAAAA%%%%;%%CCCCC%%` with `AAAAA` set to
`%%CCCCC`, a value that ends with the beginning of a token, the percent signs
after the value complete the token `%%CCCCC%%`. -/
theorem interpolate_value_ending_in_token_beginning :
    interpolate (envOf [("AAAAA".toList, "%%CCCCC".toList), ("CCCCC".toList, "x".toList)])
      "%%AAAAA%%%%;%%CCCCC%%".toList = "x;x".toList ∧
    simultaneousSubstitution
      (envOf [("AAAAA".toList, "%%CCCCC".toList), ("CCCCC".toList, "x".toList)])
      "%%AAAAA%%%%;%%CCCCC%%".toList = "%%CCCCC%%;x".toList := by
  refine ⟨by decide, by decide⟩

/-! ### The debug sink and percent signs -/

theorem sprintfPlain_percentFree : ∀ (s : GoString), percentFree s = true →
    sprintfPlain s = some s
  | [], _ => rfl
  | c :: rest, h => by
    have hc : c ≠ '%' := percentFree_iff.1 h c (List.mem_cons_self _ _)
    have hrest : percentFree rest = true :=
      percentFree_iff.2 (fun x hx => percentFree_iff.1 h x (List.mem_cons_of_mem _ hx))
    rw [sprintfPlain.eq_def]
    simp only [if_neg hc, sprintfPlain_percentFree rest hrest]
    rfl

/-- C21, the failing input: for the one-element batch holding the gauge `cpu%`
with value 1 and no dimensions, whose JSON serialization is
`{"name":"cpu%","type":"gauge","value":1,"dimensions":{}}`, `Debug.emitMetrics`
writes after its start message the line
`{"name":"cpu%!"(MISSING),"type":"gauge","value":1,"dimensions":{}}`, which is
not the serialization: the serialization is handed to `fmt.Sprintf` as the
format and `%"` is read as a verb without operand. -/
theorem Debug_emitMetrics_percent_sign (h : Debug) (other : Sprintf) :
    h.emitMetrics
        (fun _ => ("\x7b\"name\":\"cpu%\",\"type\":\"gauge\",\"value\":1,\"dimensions\":\x7b\x7d\x7d".toList,
          none))
        (sprintfNoOperands other)
        [{ name := "cpu%".toList, metricType := MetricType.Gauge, value := Float64.one,
           dimensions := [] }] =
      ([{ level := LogLevel.Info, msg := "Starting to emit 1 metrics".toList },
        { level := LogLevel.Info,
          msg := "\x7b\"name\":\"cpu%!\"(MISSING),\"type\":\"gauge\",\"value\":1,\"dimensions\":\x7b\x7d\x7d".toList }],
       true) ∧
    "\x7b\"name\":\"cpu%!\"(MISSING),\"type\":\"gauge\",\"value\":1,\"dimensions\":\x7b\x7d\x7d".toList ≠
      "\x7b\"name\":\"cpu%\",\"type\":\"gauge\",\"value\":1,\"dimensions\":\x7b\x7d\x7d".toList := by
  refine ⟨?_, by decide⟩
  have hs : sprintfPlain
      "\x7b\"name\":\"cpu%\",\"type\":\"gauge\",\"value\":1,\"dimensions\":\x7b\x7d\x7d".toList =
      some "\x7b\"name\":\"cpu%!\"(MISSING),\"type\":\"gauge\",\"value\":1,\"dimensions\":\x7b\x7d\x7d".toList := by
    decide
  simp only [Debug.emitMetrics, Debug.convertToDebug, sprintfNoOperands, hs]
  rfl

/-! ### `int(f)` against truncation of the denoted number -/

theorem truncateTowardZero_signed (b : Bool) (q : ℚ) (hq : 0 ≤ q) :
    truncateTowardZero ((if b = true then -1 else 1) * q) =
      if b = true then -⌊q⌋ else ⌊q⌋ := by
  cases b with
  | false => simp [truncateTowardZero, hq]
  | true =>
    simp only [if_true, neg_mul, one_mul]
    rcases hq.eq_or_lt with h0 | hpos
    · subst h0
      simp [truncateTowardZero]
    · have hneg : ¬ (0 ≤ -q) := by
        intro h
        linarith
      simp only [truncateTowardZero, if_neg hneg]
      exact Int.ceil_neg

theorem floor_below_one (f : Float64) (hfrac : f.fraction < 2 ^ 52) (he : f.exponent < 1023) :
    ⌊(f.significand : ℚ) * (2 : ℚ) ^ f.scale⌋ = 0 := by
  have hm : (f.significand : ℚ) < 2 ^ 53 := by
    have : f.significand < 2 ^ 53 := by
      unfold Float64.significand
      split <;> omega
    exact_mod_cast this
  have hs : f.scale ≤ -53 := by
    unfold Float64.scale
    split <;> omega
  have hpow : (2 : ℚ) ^ f.scale ≤ (2 : ℚ) ^ (-53 : ℤ) :=
    zpow_le_zpow_right₀ (by norm_num) hs
  have hpos : (0 : ℚ) < (2 : ℚ) ^ f.scale := zpow_pos (by norm_num) _
  rw [Int.floor_eq_zero_iff]
  constructor
  · exact mul_nonneg (Nat.cast_nonneg _) hpos.le
  · calc (f.significand : ℚ) * (2 : ℚ) ^ f.scale
        < 2 ^ 53 * (2 : ℚ) ^ f.scale := mul_lt_mul_of_pos_right hm hpos
      _ ≤ 2 ^ 53 * (2 : ℚ) ^ (-53 : ℤ) := mul_le_mul_of_nonneg_left hpow (by norm_num)
      _ = 1 := by norm_num

theorem floor_shift_left (f : Float64) (he : 1023 + 52 ≤ f.exponent) :
    ⌊(f.significand : ℚ) * (2 : ℚ) ^ f.scale⌋ =
      (((2 ^ 52 + f.fraction) * 2 ^ (f.exponent - 1023 - 52) : Nat) : Int) := by
  have hsig : f.significand = 2 ^ 52 + f.fraction := by
    unfold Float64.significand
    rw [if_neg (by omega)]
  have hscale : f.scale = ((f.exponent - 1023 - 52 : Nat) : Int) := by
    unfold Float64.scale
    rw [if_neg (by omega)]
    omega
  rw [hsig, hscale, zpow_natCast]
  have : ((2 ^ 52 + f.fraction : Nat) : ℚ) * (2 : ℚ) ^ (f.exponent - 1023 - 52) =
      (((2 ^ 52 + f.fraction) * 2 ^ (f.exponent - 1023 - 52) : Nat) : ℚ) := by
    push_cast
    ring
  rw [this]
  exact Int.floor_natCast _

theorem floor_shift_right (f : Float64) (h1 : 1023 ≤ f.exponent) (h2 : f.exponent < 1023 + 52) :
    ⌊(f.significand : ℚ) * (2 : ℚ) ^ f.scale⌋ =
      (((2 ^ 52 + f.fraction) / 2 ^ (52 - (f.exponent - 1023)) : Nat) : Int) := by
  have hsig : f.significand = 2 ^ 52 + f.fraction := by
    unfold Float64.significand
    rw [if_neg (by omega)]
  have hscale : f.scale = -((52 - (f.exponent - 1023) : Nat) : Int) := by
    unfold Float64.scale
    rw [if_neg (by omega)]
    omega
  rw [hsig, hscale, zpow_neg, zpow_natCast]
  have : ((2 ^ 52 + f.fraction : Nat) : ℚ) * ((2 : ℚ) ^ (52 - (f.exponent - 1023)))⁻¹ =
      ((2 ^ 52 + f.fraction : Nat) : ℚ) / ((2 ^ (52 - (f.exponent - 1023)) : Nat) : ℚ) := by
    push_cast
    rw [div_eq_mul_inv]
  rw [this]
  exact Rat.floor_natCast_div_natCast _ _

theorem truncateTowardZero_toRat (f : Float64) (hfrac : f.fraction < 2 ^ 52) :
    truncateTowardZero f.toRat =
      if f.exponent < 1023 then 0
      else if f.sign = true then
        -(((if 52 ≤ f.exponent - 1023 then (2 ^ 52 + f.fraction) * 2 ^ (f.exponent - 1023 - 52)
            else (2 ^ 52 + f.fraction) / 2 ^ (52 - (f.exponent - 1023)) : Nat) : Nat) : Int)
      else
        (((if 52 ≤ f.exponent - 1023 then (2 ^ 52 + f.fraction) * 2 ^ (f.exponent - 1023 - 52)
            else (2 ^ 52 + f.fraction) / 2 ^ (52 - (f.exponent - 1023)) : Nat) : Nat) : Int) := by
  have hq : (0 : ℚ) ≤ (f.significand : ℚ) * (2 : ℚ) ^ f.scale :=
    mul_nonneg (Nat.cast_nonneg _) (zpow_pos (by norm_num) _).le
  unfold Float64.toRat
  rw [truncateTowardZero_signed f.sign _ hq]
  by_cases he : f.exponent < 1023
  · rw [if_pos he, floor_below_one f hfrac he]
    split <;> rfl
  · rw [if_neg he]
    by_cases h52 : 52 ≤ f.exponent - 1023
    · rw [if_pos h52, floor_shift_left f (by omega)]
    · rw [if_neg h52, floor_shift_right f (by omega) (by omega)]

/-- C22: for every finite `float64` value `x` whose integer part fits the `int`
range and every default `d`, `GetAsInt(x, d)` is `x` truncated toward zero,
whatever `d` is. -/
theorem GetAsInt_float_truncates (f : Float64) (d : Int)
    (hexp : f.exponent < 2047) (hfrac : f.fraction < 2 ^ 52)
    (hfit : -(2 ^ 63) ≤ truncateTowardZero f.toRat ∧ truncateTowardZero f.toRat < 2 ^ 63) :
    GetAsInt (Value.float64 f) d = truncateTowardZero f.toRat := by
  have htr := truncateTowardZero_toRat f hfrac
  rw [htr] at hfit ⊢
  show f.toInt = _
  unfold Float64.toInt
  rw [if_neg (by omega)]
  by_cases he : f.exponent < 1023
  · rw [if_pos he, if_pos he]
  · rw [if_neg he] at hfit ⊢
    rw [if_neg he]
    simp only
    rw [if_pos hfit]

/-- C22, worked input: 12.123 gives 12 and -12.9 gives -12, over the defaults
123 and 7. -/
theorem GetAsInt_float_truncates_witness :
    GetAsInt (Value.float64 { sign := false, exponent := 1026, fraction := 2321042657956069 })
        123 =
      truncateTowardZero
        (Float64.toRat { sign := false, exponent := 1026, fraction := 2321042657956069 }) ∧
    GetAsInt (Value.float64 { sign := false, exponent := 1026, fraction := 2321042657956069 })
        123 = 12 ∧
    GetAsInt (Value.float64 { sign := true, exponent := 1026, fraction := 2758454771764429 })
        7 =
      truncateTowardZero
        (Float64.toRat { sign := true, exponent := 1026, fraction := 2758454771764429 }) ∧
    GetAsInt (Value.float64 { sign := true, exponent := 1026, fraction := 2758454771764429 })
        7 = -12 :=
  ⟨GetAsInt_float_truncates _ 123 (by decide) (by decide)
      (by rw [truncateTowardZero_toRat _ (by decide)]; decide),
   by decide,
   GetAsInt_float_truncates _ 7 (by decide) (by decide)
      (by rw [truncateTowardZero_toRat _ (by decide)]; decide),
   by decide⟩

end Fullerite
